import Mathlib

/-!
# Verification of the LTTL segmentation and tabulation kernel

Shallow embedding of the core data structures and operations of the LTTL
package (`Segment.py`, `Segmentation.py`, `Segmenter.py`, `Table.py`,
`Processor.py`, `Utils.py`) together with proofs and refutations of the
specification claims.

Conventions of the embedding:
* Python's global backing-string store `Segmentation.data` is an explicit
  `List StoreEntry` argument; an entry is either a concrete string or an
  integer redirect to an earlier entry.
* Python `None` for a segment's `start`/`end` attribute is `Option Nat`.
* Python `dict`s are association lists (`List (key × value)`) with the
  dict assignment/update semantics made explicit.
* Fallible code paths (KeyError on `str_index_ptr`, IndexError on segment
  access) are modelled in the `Option` monad; the `try ... except: return
  list()` wrapper of the source becomes `Option.getD ... []`.
* Exact rational arithmetic (`ℚ`) stands in for Python's binary floating
  point where the source divides integers, and `ℝ` with `Real.sqrt` where
  the source calls `math.sqrt`/`np.sqrt`.
-/

namespace LTTL

/-! ## The backing string store (`Segmentation.data`, `Segmentation.get_data`)

`Segmentation.data` is a list whose entries are strings or `int` redirects to
an earlier concrete entry.  `get_data` dereferences one redirect hop; if the
dereferenced entry is itself a redirect the Python code would hand an `int`
to `len`/slicing and raise, which the model reports as `none`.  (Negative
indices, which Python wraps around, are not used by the claims and are not
modelled.) -/

inductive StoreEntry where
  | str : String → StoreEntry
  | ref : Nat → StoreEntry
deriving DecidableEq, Repr

def getData (data : List StoreEntry) (index : Nat) : Option String :=
  match data.get? index with
  | some (StoreEntry.str s) => some s
  | some (StoreEntry.ref j) =>
      match data.get? j with
      | some (StoreEntry.str s) => some s
      | _ => none
  | none => none

/-! ## Segments (`Segment.py`)

A segment is a triple (`str_index`, `start`, `end`) plus annotations; the
annotations play no role in any claim and are omitted.  `end` is a Lean
keyword, so the field is called `stop`. -/

structure Seg where
  strIdx : Nat
  start : Option Nat
  stop : Option Nat
deriving DecidableEq, Repr

/-- Python truthiness-based defaulting `x or 0` used throughout `Segment.py`
for `start`: `None` and `0` both give `0`. -/
def orZero (o : Option Nat) : Nat := o.getD 0

/-- Python `other.end or None` in `Segment.__eq__`: `None` and `0` are falsy
and give `None`; any other number gives itself. -/
def orNone (o : Option Nat) : Option Nat :=
  match o with
  | some (n + 1) => some (n + 1)
  | _ => none

/-- `Segment.__eq__` (Segment.py lines 66-71):
`self.str_index == other.str_index and self.start == (other.start or 0)
and self.end == (other.end or None)`.  The comparison `self.start == (...)`
compares an `Option Nat` (Python `None`-or-int) with an `Nat`; in Python
`None == n` is `False`, so it holds exactly when `self.start` is
`some ((other.start).getD 0)`. -/
def segEq (s t : Seg) : Bool :=
  s.strIdx == t.strIdx &&
    s.start == some (orZero t.start) &&
    s.stop == orNone t.stop

/-! ## Utils.py: expected subsample variety (claim C7)

`get_expected_subsample_variety(dictionary, subsample_size)` with
`_prob_no_occurrence`.  The frequency dictionary is modelled by the list of
its values (its keys are irrelevant); `len(dictionary)` is the length of
that list.  `binom(, exact=True)` is `Nat.choose`; the final true division
of exact integers is modelled in `ℚ`.  The `lru_cache` memoization of
`_prob_no_occurrence` does not change its value and is not modelled. -/

/-- `_prob_no_occurrence(sample_size, subsample_size, sample_freq,
num_subsamples)` (Utils.py lines 154-171). -/
def probNoOccurrence (sampleSize subsampleSize sampleFreq numSubsamples : Nat) : ℚ :=
  if sampleFreq > sampleSize - subsampleSize then 0
  else ((sampleSize - sampleFreq).choose subsampleSize : ℚ) / (numSubsamples : ℚ)

/-- `get_expected_subsample_variety(dictionary, subsample_size)`
(Utils.py lines 138-151).  Raising `ValueError` when the subsample is larger
than the sample is modelled by `Except.error`. -/
def getExpectedSubsampleVariety (freqs : List Nat) (subsampleSize : Nat) :
    Except String ℚ :=
  let sampleSize := freqs.sum
  if subsampleSize > sampleSize then
    Except.error "Not enough elements in dictionary"
  else
    Except.ok <| (freqs.length : ℚ) -
      (freqs.map (fun freq =>
        probNoOccurrence sampleSize subsampleSize freq
          (sampleSize.choose subsampleSize))).sum

/-! ## Utils.iround and Segmenter.sample, systematic mode (claim C9)

`iround(x) = int(round(x) - .5) + (x > 0)` (Utils.py lines 59-65).  Python 3's
built-in `round` rounds halves to even; `int` truncates toward zero; `(x > 0)`
is `1` or `0`.  `sample` in mode `'systematic'` (Segmenter.py lines 704-707)
computes `step = iround(1 / (sample_size / len(segmentation)))` and selects
`range(len)[::step]`; the two float divisions are modelled by the exact
rational `len / sample_size`. -/

/-- Python 3 `round` on a rational: nearest integer, halves to even. -/
def pyRound (x : ℚ) : ℤ :=
  if x - ⌊x⌋ = 1 / 2 then (if Even ⌊x⌋ then ⌊x⌋ else ⌊x⌋ + 1) else round x

/-- Python `int()` applied to a rational: truncation toward zero. -/
def pyInt (x : ℚ) : ℤ := if 0 ≤ x then ⌊x⌋ else ⌈x⌉

/-- `iround(x)` (Utils.py lines 59-65). -/
def iround (x : ℚ) : ℤ := pyInt ((pyRound x : ℚ) - 1 / 2) + (if 0 < x then 1 else 0)

/-- The stride computed by `sample` in `'systematic'` mode:
`iround(1 / (sample_size / len))`, with the float divisions idealized to the
exact rational `len / sample_size`. -/
def systematicStep (len sampleSize : ℕ) : ℤ := iround ((len : ℚ) / (sampleSize : ℚ))

/-- `sampled_indices = list(range(len(segmentation)))[::step]` (Segmenter.py
line 707): the indices `0, step, 2·step, …` below `len`, i.e. the multiples
of the stride, in ascending order. -/
def systematicIndices (len sampleSize : ℕ) : List ℕ :=
  (List.range len).filter (fun i => i % (systematicStep len sampleSize).toNat = 0)

/-- The main loop of `sample` (Segmenter.py lines 716-726): each segment goes
to the positive output when its position is among the sampled indices and to
the `'NEG_'`-labelled output otherwise, in order.  Segments are value-copied
(`deepcopy` is the identity in this model); each output is paired with its
label. -/
def sampleSystematic (segs : List Seg) (sampleSize : Nat) (label : String) :
    (String × List Seg) × (String × List Seg) :=
  let sampled := systematicIndices segs.length sampleSize
  ((label, (segs.enum.filter (fun p => decide (p.1 ∈ sampled))).map Prod.snd),
   ("NEG_" ++ label,
    (segs.enum.filter (fun p => decide (p.1 ∉ sampled))).map Prod.snd))

/-! ## Segmentations (`Segmentation.py`)

A segmentation is its ordered list of segments together with the
`str_index_ptr` dictionary, modelled as an association list with unique keys
in insertion order (Python dict semantics).  The chunk paging
(`CHUNK_SIZE = 10^6`, spill to temporary files) is transparent to the
logical sequence of segments and is not modelled; the label plays no role in
the claims about `str_index_ptr` and `_sort`. -/

structure Sgmt where
  segs : List Seg
  ptr : List (Nat × Nat)
deriving DecidableEq, Repr

/-- Lookup in an association-list dictionary (first entry with the key wins;
keys are unique in all dictionaries the model builds). -/
def dlookup (k : Nat) : List (Nat × Nat) → Option Nat
  | [] => none
  | p :: t => if p.1 = k then some p.2 else dlookup k t

/-- Python dict assignment `d[k] = v`: overwrite the existing entry in place,
else append a new entry. -/
def dictSet (d : List (Nat × Nat)) (k v : Nat) : List (Nat × Nat) :=
  if (dlookup k d).isSome then d.map (fun p => if p.1 = k then (k, v) else p)
  else d ++ [(k, v)]

/-! Loop of `Segmentation._get_str_index_ptr` (Segmentation.py lines
307-315): scan the segments with a `last_seen` state, recording `i + offset`
for each segment whose `str_index` differs from the previous one. -/

/-- The test `not last_seen or s.str_index != last_seen.str_index`:
`last_seen` is only falsy when it is `None` (a `Segment` object is always
truthy). -/
def newRunFlag (lastSeen : Option Seg) (s : Seg) : Bool :=
  match lastSeen with
  | none => true
  | some t => s.strIdx != t.strIdx

def getStrIndexPtrGo (acc : List (Nat × Nat)) (lastSeen : Option Seg) (i : Nat) :
    List Seg → List (Nat × Nat)
  | [] => acc
  | s :: rest =>
      getStrIndexPtrGo
        (if newRunFlag lastSeen s then dictSet acc s.strIdx i else acc)
        (some s) (i + 1) rest

/-- `Segmentation._get_str_index_ptr(segments, before_first_segment, offset)`. -/
def getStrIndexPtr (segments : List Seg) (before : Option Seg) (offset : Nat) :
    List (Nat × Nat) :=
  getStrIndexPtrGo [] before offset segments

/-- The empty segmentation (`Segmentation(None, label)`). -/
def emptySgmt : Sgmt := ⟨[], []⟩

/-- `Segmentation.append(segment)` (Segmentation.py lines 385-391): update
`str_index_ptr` when the segmentation is empty or the last segment bears a
different `str_index`, then add the segment at the end. -/
def appendSeg (S : Sgmt) (s : Seg) : Sgmt :=
  ⟨S.segs ++ [s],
   if S.segs.length = 0 ∨ (S.segs.getLast?).map Seg.strIdx ≠ some s.strIdx
   then dictSet S.ptr s.strIdx S.segs.length
   else S.ptr⟩

/-- Python `new_ptrs.update(self.str_index_ptr)`: assign every entry of
`other` into `d` in order (entries of `other` win on common keys). -/
def dictUpdate (d other : List (Nat × Nat)) : List (Nat × Nat) :=
  other.foldl (fun acc p => dictSet acc p.1 p.2) d

/-- `Segmentation.extend(segments)` (Segmentation.py lines 369-383): compute
run starts of the new batch relative to the current last segment, then let
the existing `str_index_ptr` entries win, and append the batch. -/
def extendSeg (S : Sgmt) (batch : List Seg) : Sgmt :=
  ⟨S.segs ++ batch,
   if S.segs.length > 0 then
     dictUpdate (getStrIndexPtr batch S.segs.getLast? S.segs.length) S.ptr
   else getStrIndexPtr batch none 0⟩

/-- A construction step of a segmentation: one `append` or one `extend`. -/
inductive SegOp where
  | app : Seg → SegOp
  | ext : List Seg → SegOp
deriving DecidableEq, Repr

def applyOp (S : Sgmt) : SegOp → Sgmt
  | SegOp.app s => appendSeg S s
  | SegOp.ext b => extendSeg S b

/-- A segmentation built from the empty one by a sequence of `append` and
`extend` operations. -/
def buildSgmt (ops : List SegOp) : Sgmt := ops.foldl applyOp emptySgmt

/-- Position of the first segment bearing a given `str_index`. -/
def firstPos : List Seg → Nat → Option Nat
  | [], _ => none
  | s :: rest, idx =>
      if s.strIdx = idx then some 0 else (firstPos rest idx).map (· + 1)

/-- Every `str_index` occupies a single contiguous run of positions: any
position strictly between two positions bearing the same `str_index` bears
it too. -/
def ContigRuns (l : List Seg) : Prop :=
  ∀ j, j < l.length → ∀ k, k < j → ∀ i, i < k →
    (l.getD i ⟨0, none, none⟩).strIdx = (l.getD j ⟨0, none, none⟩).strIdx →
    (l.getD k ⟨0, none, none⟩).strIdx = (l.getD i ⟨0, none, none⟩).strIdx

instance (l : List Seg) : Decidable (ContigRuns l) := by
  unfold ContigRuns
  infer_instance

/-- The `already_sorted` scan of `Segmentation._sort` (Segmentation.py lines
450-457): walk the sorted keys and compare each pointer value against the
previous one (`last` starts at 0 and is updated unconditionally). -/
def ptrAscending (sortedKeys : List Nat) (ptr : List (Nat × Nat)) : Bool :=
  (sortedKeys.foldl
    (fun (st : Bool × Nat) k =>
      ((st.1 && !(decide (((dlookup k ptr).getD 0) < st.2))), (dlookup k ptr).getD 0))
    (true, 0)).1

/-- `Segmentation._sort()` (Segmentation.py lines 439-474).  If the pointer
values are already ascending in key order, return the segmentation itself;
otherwise rebuild by walking, for each key in ascending order, the
consecutive segments starting at `str_index_ptr[k]` while they bear that
key (the walk is `takeWhile` on the suffix), appending them to a fresh
segmentation.  Python's stable `sorted()` on the distinct keys is
`insertionSort`. -/
def sortSegmentation (S : Sgmt) : Sgmt :=
  let sortedKeys := List.insertionSort (· ≤ ·) (S.ptr.map Prod.fst)
  if ptrAscending sortedKeys S.ptr then S
  else
    (sortedKeys.flatMap (fun k =>
      match dlookup k S.ptr with
      | some i => (S.segs.drop i).takeWhile (fun s => s.strIdx == k)
      | none => [])).foldl appendSeg emptySgmt

/-! ## Table.py: pivot and weighted-flat crosstabs (claim C3)

An `IntPivotCrosstab` is its row ids, its column ids and the integer content
of its sparse `dok_matrix`, given as a function of (row id, col id):
scipy's `dok_matrix` never stores zeros, so `self.get(row_id, col_id, 0)` —
the accessor `to_weighted_flat` reads every cell with — returns exactly this
function, and the stored (nonzero) cells are the pairs where it is nonzero. -/

structure IntPivot where
  rowIds : List String
  colIds : List String
  val : String → String → ℕ

/-- `PivotCrosstab.to_weighted_flat` (Table.py lines 588-601): walk the rows
in order, within each row the columns in order, skip cells whose count is
zero, and record the triple `(col_id, row_id, count)`. -/
def toWeightedFlat (T : IntPivot) : List (String × String × ℕ) :=
  T.rowIds.flatMap (fun r =>
    T.colIds.filterMap (fun c =>
      if T.val r c = 0 then none else some (c, r, T.val r c)))

/-- The assignment loop of `WeightedFlatCrosstab.to_pivot` (Table.py lines
1101-1110), read at one cell: each triple `x` in order performs
`new_values[row_mapping[x[1]], col_mapping[x[0]]] = x[2]` over an initially
empty `dok_matrix` whose missing cells read `0`; `np.unique` makes
`row_mapping` and `col_mapping` injective, so the resulting cell at ids
`(r, c)` holds the weight of the last triple with row id `r` and column id
`c`, and `0` when there is none.  `IntWeightedFlatCrosstab.to_pivot`
(lines 1137-1144) then casts the values to `int`, the identity here. -/
def toPivotVal (triples : List (String × String × ℕ)) (r c : String) : ℕ :=
  triples.foldl (fun acc x => if x.2.1 = r ∧ x.1 = c then x.2.2 else acc) 0

/-! ## Processor.py: `count_in_window` / `cooc_in_window` (claim C8)

The unit segmentation enters `count_in_window` as `unit_list`, the list
of its units' contents (`[u.get_content() for u in unit_segmentation]`,
Processor.py line 366), modelled as a `List String`.  With
`seq_length = 1` the function takes CASE 2 (lines 437-483): it counts the
first window `unit_list[:window_size]` into the dict `window_freq`, then
slides the window, decrementing the unit that leaves and incrementing the
unit that enters, and records a snapshot of `window_freq` as row
`str(window_index + 1)` of the table.  `window_freq` is modelled as a
function `String → ℤ` (Python dict values are ints; a key never seen reads
`0`, which agrees with `window_freq.get(unit, 0)` and with the constructed
table's missing value `0`). -/

/-- Pointwise dict assignment `d[k] = v` for the `window_freq` dict. -/
def updateF (f : String → ℤ) (k : String) (v : ℤ) : String → ℤ :=
  fun u => if u = k then v else f u

/-- The first-window loop of CASE 2 (Processor.py lines 443-446):
`window_freq[u] = window_freq.get(u, 0) + 1` for each unit of the first
window. -/
def initWindowFreq (firstWindow : List String) : String → ℤ :=
  firstWindow.foldl (fun f u => updateF f u (f u + 1)) (fun _ => 0)

/-- The state of `window_freq` when row `str(i+1)` of the table is recorded:
`i = 0` is the first window, and the step from `i` to `i + 1` is the loop
body at `window_index = i + 1` (Processor.py lines 462-467): decrement
`unit_list[window_index - 1]`, increment `unit_list[window_index +
window_size - 1]`.  Out-of-range reads default to `""`; the loop only runs
while both indices are in range. -/
def windowFreqAt (us : List String) (W : ℕ) : ℕ → (String → ℤ)
  | 0 => initWindowFreq (us.take W)
  | i + 1 =>
      let f := windowFreqAt us W i
      let f1 := updateF f (us.getD i "") (f (us.getD i "") - 1)
      updateF f1 (us.getD (i + W) "") (f1 (us.getD (i + W) "") + 1)

/-- `np.nan_to_num(x / x)` on one cell of `to_normalized('presence/absence')`
(Table.py line 764): `1` for a nonzero cell, `nan → 0` for a zero cell. -/
def presenceAbsence (v : ℤ) : ℤ := if v = 0 then 0 else 1

/-- One cell of `cooc_in_window` (Processor.py lines 2283-2293): the
contingency table of `count_in_window` has rows `'1'..str(L - W + 1)` and
cell `(str(i+1), u) = windowFreqAt us W i u`; it is normalized to
presence/absence and the result is `normalizedᵀ · normalized`, so the cell
at unit types `(u, v)` is `Σ_i presence(i, u) * presence(i, v)`. -/
def coocInWindowCell (us : List String) (W : ℕ) (u v : String) : ℤ :=
  ((List.range (us.length - W + 1)).map
    (fun i => presenceAbsence (windowFreqAt us W i u) *
      presenceAbsence (windowFreqAt us W i v))).sum

/-! ## Table.py: `to_normalized('columns', 'l2')` (claim C6)

`self.values.power(2).sum(0)` squares the matrix cell-wise and sums over
the rows (axis 0), giving one sum per column; the matrix is divided
cell-wise by the `np.sqrt` of its column's sum and `np.nan_to_num` maps
the `nan`s arising as `0 / 0` in all-zero columns to `0`.  Floating-point
arithmetic is idealized to `ℝ`; Lean's `x / 0 = 0` convention coincides
with `nan_to_num` on every reachable cell (a nonzero cell forces a
positive column sum, so `x / 0` with `x ≠ 0`, which numpy would turn into
`inf`, never occurs).  The result keeps the row ids, column ids and
missing value of the input (Table.py lines 788-802), so only the cell
values are modelled. -/

/-- One column's entry of `self.values.power(2).sum(0)` (Table.py line 754). -/
noncomputable def colSumSq (T : IntPivot) (c : String) : ℝ :=
  (T.rowIds.map (fun r => ((T.val r c : ℝ)) ^ 2)).sum

/-- One cell of `np.nan_to_num(self.values / np.sqrt(self.values.power(2)
.sum(0)))` (Table.py lines 753-754). -/
noncomputable def toNormalizedColumnsL2 (T : IntPivot) (r c : String) : ℝ :=
  (T.val r c : ℝ) / Real.sqrt (colSumSq T c)

/-- A concrete 2×2 crosstab: column `"a"` holds `(3, 4)`, column `"b"` is
all zero. -/
def exampleCrosstab : IntPivot :=
  ⟨["r1", "r2"], ["a", "b"],
   fun r c => if c = "a" then (if r = "r1" then 3 else 4) else 0⟩

/-! ## Table.py: `to_association_matrix` (claim C10)

`to_association_matrix(bias='none')` (Table.py lines 828-868) reads the
table densely (`to_numpy`), computes the exchange matrix
`E = Fᵀ·diag(1/sum_row)·F / total` and the association matrix
`A = diag(1/√(sum_col/total)) · E · diag(1/√(sum_col/total))`, re-sparsifies
with `dok_matrix(output_matrix)` — which stores exactly the *nonzero* cells —
and builds the result `PivotCrosstab` without passing the `missing`
argument, so the result's missing value is the constructor default `None`.
`Table.get` then returns `self.values.get((row, col), missing)`: the stored
value if present, `self.missing` otherwise.  The model covers input tables
with `header_col_type = 'string'` (as `count_in_context` builds for string
context types; a `'continuous'` header would first drop the leading column)
and, like the claim, tables whose rows and columns all have a positive sum
(true of every `count_in_context` output, whose unit types each occur at
least once), keeping the idealized `ℝ` arithmetic away from numpy's
`1/√0 = inf`.  The input's own missing value (0) plays no role in the dense
computation. -/

/-- One entry of `freq.sum(axis=1)` (Table.py line 840). -/
noncomputable def rowSum (T : IntPivot) (r : String) : ℝ :=
  (T.colIds.map (fun c => (T.val r c : ℝ))).sum

/-- One entry of `freq.sum(axis=0)` (Table.py line 839). -/
noncomputable def colSum (T : IntPivot) (c : String) : ℝ :=
  (T.rowIds.map (fun r => (T.val r c : ℝ))).sum

/-- `total_freq = freq.sum()` (Table.py line 838). -/
noncomputable def totalFreq (T : IntPivot) : ℝ :=
  (T.rowIds.map (fun r => rowSum T r)).sum

/-- One cell of the exchange matrix
`np.dot(np.transpose(freq), np.dot(np.diag(1 / sum_row), freq)) /
total_freq` (Table.py lines 841-847). -/
noncomputable def exchange (T : IntPivot) (c1 c2 : String) : ℝ :=
  ((T.rowIds.map (fun r =>
    (1 / rowSum T r) * (T.val r c1 : ℝ) * (T.val r c2 : ℝ))).sum) / totalFreq T

/-- One cell of the `bias='none'` output matrix
`np.dot(sqrt_pi_inv, np.dot(exchange, sqrt_pi_inv))` with
`sqrt_pi_inv = np.diag(1 / np.sqrt(sum_col / total_freq))`
(Table.py lines 850-852). -/
noncomputable def assocNone (T : IntPivot) (c1 c2 : String) : ℝ :=
  (1 / Real.sqrt (colSum T c1 / totalFreq T)) * exchange T c1 c2 *
    (1 / Real.sqrt (colSum T c2 / totalFreq T))

/-- The result of `to_association_matrix`: its ids (the input's column ids
on both axes), its sparse store, and its missing value. -/
structure AssocTab where
  ids : List String
  store : String → String → Option ℝ
  missing : Option ℝ

open Classical in
/-- `to_association_matrix(bias='none')` (Table.py lines 856-868):
`dok_matrix(output_matrix)` keeps exactly the in-shape cells whose
association value is nonzero, and the `PivotCrosstab` is constructed
without a `missing` argument, hence with missing value `None`. -/
noncomputable def toAssociationMatrix (T : IntPivot) : AssocTab :=
  ⟨T.colIds,
   fun c1 c2 =>
     if c1 ∈ T.colIds ∧ c2 ∈ T.colIds ∧ assocNone T c1 c2 ≠ 0
     then some (assocNone T c1 c2) else none,
   none⟩

/-- `Table.get(row, col)` with the default missing argument (Table.py lines
139-157): the stored cell if present (a `KeyError`/out-of-shape access falls
into the `except` branch), else `self.missing`. -/
def tableGet (A : AssocTab) (c1 c2 : String) : Option ℝ :=
  match A.store c1 c2 with
  | some v => some v
  | none => A.missing

/-- A concrete 2×2 crosstab with diagonal support: row `"r1"` has a single
count in column `"a"`, row `"r2"` a single count in column `"b"`; the two
columns never cooccur, so their association value is exactly 0. -/
def diagCrosstab : IntPivot :=
  ⟨["r1", "r2"], ["a", "b"],
   fun r c => if (r = "r1" ∧ c = "a") ∨ (r = "r2" ∧ c = "b") then 1 else 0⟩

/-! ## Segment.get_contained_segments (claim C1)

`A.get_contained_segments(B)` (Segment.py lines 272-321).  The computation
of `string_length = len(Segmentation.get_data(str_index))` happens *before*
the `try`, so a failing store access propagates (`none` result); every
failure inside the `try` (`KeyError` on `str_index_ptr`, `IndexError` on a
segment access) is caught and yields the empty list, modelled by running
the body in the `Option` monad and applying `.getD []`.  The `while` loop
halves the search interval, so running it on fuel `end_search -
start_search` reproduces it exactly (the interval width shrinks by at
least one per iteration). -/

/-- Python `x or string_length` for a segment's `end`: `None` and `0` are
falsy and give `string_length`. -/
def orLen (o : Option Nat) (strLen : Nat) : Nat :=
  match o with
  | some (n + 1) => n + 1
  | _ => strLen

/-- `min(candidates + [d])`. -/
def minimumD (l : List Nat) (d : Nat) : Nat := l.foldr min d

/-- The binary-search `while` loop (Segment.py lines 297-302), on fuel:
while `end_search - start_search > 1`, read the middle segment (a failed
access is the caught `IndexError`) and move `end_search` down to the middle
when `(middle.start or 0) >= start`, else move `start_search` up to it. -/
def bsearchGo (segs : List Seg) (startA : Nat) : Nat → Nat → Nat → Option (Nat × Nat)
  | 0, s, e => some (s, e)
  | fuel + 1, s, e =>
      if e - s > 1 then
        match segs.get? ((e + s) / 2) with
        | none => none
        | some mid =>
            if startA ≤ orZero mid.start then
              bsearchGo segs startA fuel s ((e + s) / 2)
            else
              bsearchGo segs startA fuel ((e + s) / 2) e
      else some (s, e)

/-- The final collection loop (Segment.py lines 310-318): walk the suffix,
break on a `str_index` change or `(segment.start or 0) > end`, and append
the segments with `end >= (segment.end or string_length)`. -/
def collectContained (idx endA strLen : Nat) : List Seg → List Seg
  | [] => []
  | s :: rest =>
      if idx ≠ s.strIdx ∨ orZero s.start > endA then []
      else
        (if endA ≥ orLen s.stop strLen then [s] else []) ++
          collectContained idx endA strLen rest

/-- The tail of the `try` block after the binary search (Segment.py lines
304-318): read `segmentation[start_search]` (the caught `IndexError` when out
of range), decrement `start_search` when its start is `>= start`, and run the
collection loop on the suffix `segmentation[start_search + 1:]`. -/
def gcsAfterSearch (segs : List Seg) (idx startA endA strLen s1 : ℕ) :
    Option (List Seg) :=
  match segs.get? s1 with
  | none => none
  | some seg =>
      some (collectContained idx endA strLen
        (segs.drop (if startA ≤ orZero seg.start then s1 else s1 + 1)))

/-- The `try` block from `end_search` on (Segment.py lines 289-318):
`end_search = min([x for x in ptr.values() if x > start_search] + [len])`,
then the binary search, then the collection. -/
def gcsAfterPtr (segs : List Seg) (ptr : List (Nat × Nat))
    (idx startA endA strLen s0 : ℕ) : Option (List Seg) :=
  match bsearchGo segs startA
      (minimumD ((ptr.map Prod.snd).filter (fun x => decide (s0 < x)))
        segs.length - s0)
      s0
      (minimumD ((ptr.map Prod.snd).filter (fun x => decide (s0 < x)))
        segs.length) with
  | none => none
  | some p => gcsAfterSearch segs idx startA endA strLen p.1

/-- The whole `try` block (Segment.py lines 286-319), starting with
`start_search = segmentation.str_index_ptr[str_index]` (the caught
`KeyError` when absent). -/
def gcsCore (segs : List Seg) (ptr : List (Nat × Nat))
    (idx startA endA strLen : ℕ) : Option (List Seg) :=
  match dlookup idx ptr with
  | none => none
  | some s0 => gcsAfterPtr segs ptr idx startA endA strLen s0

/-- `Segment.get_contained_segments` (Segment.py lines 272-321). -/
def getContainedSegments (data : List StoreEntry) (A : Seg) (B : Sgmt) :
    Option (List Seg) :=
  match getData data A.strIdx with
  | none => none
  | some astr =>
      some ((gcsCore B.segs B.ptr A.strIdx (orZero A.start)
        (orLen A.stop astr.length) astr.length).getD [])

/-- The end of the contiguous `str_index` run beginning at position `s0`. -/
def runEnd (segs : List Seg) (idx s0 : ℕ) : ℕ :=
  s0 + ((segs.drop s0).takeWhile (fun s => s.strIdx == idx)).length

end LTTL

/-! # Theorems for the claims -/

namespace LTTL

/-- **C2** (code_bug evidence).  `Segment.__eq__` compares
`self.start == (other.start or 0)`, so a segment whose `start` attribute is
`None` is *not* equal to itself: the claimed equality-iff-materialized-ranges
(and in particular reflexivity for an absent `start`) fails on the code.
Here the segment `(str_index 0, start None, end None)` compares unequal to
itself, although its materialized range trivially coincides with itself. -/
theorem c2_segment_eq_not_reflexive :
    segEq ⟨0, none, none⟩ ⟨0, none, none⟩ = false := by decide

/-- **C4** (code_bug evidence).  `_sort`'s `already_sorted` test looks only
at `str_index_ptr`, so a segmentation with a single `str_index` whose
segments are *not* in ascending `(start, end)` order passes the test and is
returned unchanged, contradicting the docstring "Return a new segmentation
with its segments sorted by (str_index, start, end)".  Here the segments'
starts are `[2, 0]` before and after `_sort`. -/
theorem c4_sort_returns_unsorted :
    sortSegmentation ⟨[⟨0, some 2, some 3⟩, ⟨0, some 0, some 1⟩], [(0, 0)]⟩ =
      ⟨[⟨0, some 2, some 3⟩, ⟨0, some 0, some 1⟩], [(0, 0)]⟩ ∧
    ([⟨0, some 2, some 3⟩, ⟨0, some 0, some 1⟩] : List Seg).map (fun s => orZero s.start)
      = [2, 0] := by decide

/-- **C5 counterexample**.  Appending segments with `str_index` 0, then 1,
then 0 again: `append` overwrites `str_index_ptr[0]` with the start of the
newest run (position 2), although the first segment bearing `str_index` 0
is at position 0 — refuting the claim for non-adjacent runs. -/
theorem c5_counterexample :
    dlookup 0 (buildSgmt [SegOp.app ⟨0, some 0, some 1⟩, SegOp.app ⟨1, some 0, some 1⟩,
      SegOp.app ⟨0, some 2, some 3⟩]).ptr = some 2 ∧
    firstPos (buildSgmt [SegOp.app ⟨0, some 0, some 1⟩, SegOp.app ⟨1, some 0, some 1⟩,
      SegOp.app ⟨0, some 2, some 3⟩]).segs 0 = some 0 ∧
    dlookup 0 (buildSgmt [SegOp.app ⟨0, some 0, some 1⟩, SegOp.app ⟨1, some 0, some 1⟩,
      SegOp.app ⟨0, some 2, some 3⟩]).ptr ≠
      firstPos (buildSgmt [SegOp.app ⟨0, some 0, some 1⟩, SegOp.app ⟨1, some 0, some 1⟩,
        SegOp.app ⟨0, some 2, some 3⟩]).segs 0 := by decide

/-! ### Claim C5: `str_index_ptr` after `append`/`extend` — helper lemmas -/

theorem dlookup_map_set (d : List (Nat × Nat)) (k v : Nat) :
    dlookup k (d.map (fun p => if p.1 = k then (k, v) else p)) =
      if (dlookup k d).isSome then some v else none := by
  induction d with
  | nil => simp [dlookup]
  | cons p t ih =>
    by_cases hp : p.1 = k
    · rw [List.map_cons, if_pos hp, dlookup, if_pos rfl, dlookup, if_pos hp]
      simp
    · rw [List.map_cons, if_neg hp, dlookup, if_neg hp, dlookup, if_neg hp]
      exact ih

theorem dlookup_map_set_ne (d : List (Nat × Nat)) (k v k' : Nat) (h : k' ≠ k) :
    dlookup k' (d.map (fun p => if p.1 = k then (k, v) else p)) = dlookup k' d := by
  induction d with
  | nil => simp
  | cons p t ih =>
    by_cases hp : p.1 = k
    · rw [List.map_cons, if_pos hp, dlookup, dlookup,
        if_neg (show ¬ (k, v).1 = k' from fun he => h he.symm),
        if_neg (show ¬ p.1 = k' from by rw [hp]; exact fun he => h he.symm)]
      exact ih
    · rw [List.map_cons, if_neg hp, dlookup, dlookup]
      by_cases hk' : p.1 = k'
      · rw [if_pos hk', if_pos hk']
      · rw [if_neg hk', if_neg hk']
        exact ih

theorem dlookup_append_single (d : List (Nat × Nat)) (k v : Nat) :
    dlookup k (d ++ [(k, v)]) = some ((dlookup k d).getD v) := by
  induction d with
  | nil => simp [dlookup]
  | cons p t ih =>
    rw [List.cons_append, dlookup, dlookup]
    by_cases hp : p.1 = k
    · rw [if_pos hp, if_pos hp]
      simp
    · rw [if_neg hp, if_neg hp]
      exact ih

theorem dlookup_append_single_ne (d : List (Nat × Nat)) (k v k' : Nat)
    (h : k' ≠ k) : dlookup k' (d ++ [(k, v)]) = dlookup k' d := by
  induction d with
  | nil =>
    show dlookup k' [(k, v)] = dlookup k' []
    simp only [dlookup]
    rw [if_neg (show ¬ (k, v).1 = k' from fun he => h he.symm)]
  | cons p t ih =>
    rw [List.cons_append, dlookup, dlookup]
    by_cases hp : p.1 = k'
    · rw [if_pos hp, if_pos hp]
    · rw [if_neg hp, if_neg hp]
      exact ih

theorem dictSet_lookup_self (d : List (Nat × Nat)) (k v : Nat) :
    dlookup k (dictSet d k v) = some v := by
  unfold dictSet
  split
  · rename_i h
    rw [dlookup_map_set, if_pos h]
  · rename_i h
    rw [dlookup_append_single]
    have hnone : dlookup k d = none := by
      cases hd : dlookup k d with
      | none => rfl
      | some v' => exact absurd (by rw [hd]; rfl) h
    rw [hnone]
    rfl

theorem dictSet_lookup_ne (d : List (Nat × Nat)) (k v k' : Nat) (h : k' ≠ k) :
    dlookup k' (dictSet d k v) = dlookup k' d := by
  unfold dictSet
  split
  · exact dlookup_map_set_ne d k v k' h
  · exact dlookup_append_single_ne d k v k' h

theorem lookup_eq_none_of_not_mem_keys (d : List (Nat × Nat)) (k : Nat)
    (h : k ∉ d.map Prod.fst) : dlookup k d = none := by
  induction d with
  | nil => simp [dlookup]
  | cons p t ih =>
    rw [dlookup, if_neg]
    · exact ih (fun hm => h (by simp [hm]))
    · intro he
      exact h (by simp [he])

theorem dictUpdate_lookup (other : List (Nat × Nat)) :
    ∀ (d : List (Nat × Nat)), (other.map Prod.fst).Nodup → ∀ k,
    dlookup k (dictUpdate d other) =
      match dlookup k other with
      | some v => some v
      | none => dlookup k d := by
  induction other with
  | nil => intro d _ k; simp [dictUpdate, dlookup]
  | cons p t ih =>
    intro d hnd k
    have hnd' : (t.map Prod.fst).Nodup := by
      rw [List.map_cons] at hnd
      exact hnd.of_cons
    have hstep : dictUpdate d (p :: t) = dictUpdate (dictSet d p.1 p.2) t := rfl
    rw [hstep, ih (dictSet d p.1 p.2) hnd' k]
    by_cases hk : p.1 = k
    · have htnone : dlookup k t = none := by
        apply lookup_eq_none_of_not_mem_keys
        intro hm
        rw [List.map_cons] at hnd
        rw [← hk] at hm
        exact (List.nodup_cons.1 hnd).1 hm
      rw [htnone, dlookup, if_pos hk, ← hk, dictSet_lookup_self]
    · rw [dlookup, if_neg hk]
      cases ht : dlookup k t with
      | some v => rfl
      | none => exact dictSet_lookup_ne d p.1 p.2 k (fun he => hk he.symm)

theorem firstPos_append (l l' : List Seg) (idx : Nat) :
    firstPos (l ++ l') idx =
      match firstPos l idx with
      | some p => some p
      | none => (firstPos l' idx).map (· + l.length) := by
  induction l with
  | nil =>
    show firstPos l' idx = (firstPos l' idx).map (· + ([] : List Seg).length)
    cases firstPos l' idx with
    | none => rfl
    | some p => simp
  | cons s t ih =>
    rw [List.cons_append]
    show (if s.strIdx = idx then some 0 else (firstPos (t ++ l') idx).map (· + 1)) = _
    by_cases hs : s.strIdx = idx
    · rw [if_pos hs]
      show _ = (match (if s.strIdx = idx then some 0 else
        (firstPos t idx).map (· + 1)) with
        | some p => some p
        | none => (firstPos l' idx).map (· + (s :: t).length))
      rw [if_pos hs]
    · rw [if_neg hs, ih]
      show _ = (match (if s.strIdx = idx then some 0 else
        (firstPos t idx).map (· + 1)) with
        | some p => some p
        | none => (firstPos l' idx).map (· + (s :: t).length))
      rw [if_neg hs]
      cases hft : firstPos t idx with
      | some p => rfl
      | none =>
        cases hfl : firstPos l' idx with
        | none => rfl
        | some q =>
          simp only [Option.map_none', Option.map_some', List.length_cons]
          show some (q + t.length + 1) = some (q + (t.length + 1))
          exact congrArg some (by omega)

theorem firstPos_none_iff (l : List Seg) (idx : Nat) :
    firstPos l idx = none ↔ ∀ s ∈ l, s.strIdx ≠ idx := by
  induction l with
  | nil => simp [firstPos]
  | cons s t ih =>
    rw [show firstPos (s :: t) idx =
      (if s.strIdx = idx then some 0 else (firstPos t idx).map (· + 1)) from rfl]
    by_cases hs : s.strIdx = idx
    · rw [if_pos hs]
      simp [hs]
    · rw [if_neg hs]
      cases h : firstPos t idx with
      | some p =>
        rw [Option.map_some']
        constructor
        · intro habs
          exact absurd habs (by simp)
        · intro hall
          have hnone := ih.2 (fun x hx => hall x (List.mem_cons_of_mem s hx))
          rw [h] at hnone
          exact Option.noConfusion hnone
      | none =>
        rw [Option.map_none']
        constructor
        · intro _ x hx
          rcases List.mem_cons.1 hx with rfl | hmem
          · exact hs
          · exact (ih.1 h) x hmem
        · intro _
          rfl

theorem firstPos_some_spec (l : List Seg) (idx : Nat) :
    ∀ p, firstPos l idx = some p →
      p < l.length ∧ (l.getD p ⟨0, none, none⟩).strIdx = idx ∧
      ∀ q, q < p → (l.getD q ⟨0, none, none⟩).strIdx ≠ idx := by
  induction l with
  | nil =>
    intro p h
    exact absurd h (by simp [firstPos])
  | cons s t ih =>
    intro p h
    rw [show firstPos (s :: t) idx =
      (if s.strIdx = idx then some 0 else (firstPos t idx).map (· + 1)) from rfl] at h
    by_cases hs : s.strIdx = idx
    · rw [if_pos hs] at h
      cases h
      refine ⟨by simp, by simpa [List.getD] using hs, ?_⟩
      intro q hq
      omega
    · rw [if_neg hs] at h
      cases hft : firstPos t idx with
      | none =>
        rw [hft, Option.map_none'] at h
        exact Option.noConfusion h
      | some p' =>
        rw [hft, Option.map_some'] at h
        have hp : p = p' + 1 := (Option.some.inj h).symm
        subst hp
        obtain ⟨h1, h2, h3⟩ := ih p' hft
        refine ⟨by simp only [List.length_cons]; omega,
          by simpa [List.getD] using h2, ?_⟩
        intro q hq
        rcases Nat.eq_zero_or_pos q with rfl | hq0
        · simpa [List.getD] using hs
        · obtain ⟨q', rfl⟩ : ∃ q'', q = q'' + 1 := ⟨q - 1, by omega⟩
          have hq' : q' < p' := by omega
          simpa [List.getD] using h3 q' hq'

/-- Contiguity of the occurrences of one `str_index`, as used in the
inductive characterization of `_get_str_index_ptr`. -/
def NoGapIdx (idx : Nat) (l : List Seg) : Prop :=
  ∀ j, j < l.length → ∀ k, k < j → ∀ i, i < k →
    (l.getD i ⟨0, none, none⟩).strIdx = idx →
    (l.getD j ⟨0, none, none⟩).strIdx = idx →
    (l.getD k ⟨0, none, none⟩).strIdx = idx

theorem contigRuns_noGapIdx {l : List Seg} (h : ContigRuns l) (idx : Nat) :
    NoGapIdx idx l := by
  intro j hj k hk i hi hio hjo
  have := h j hj k hk i hi (hio.trans hjo.symm)
  rw [this, hio]

theorem noGapIdx_tail {idx : Nat} {s : Seg} {l : List Seg}
    (h : NoGapIdx idx (s :: l)) : NoGapIdx idx l := by
  intro j hj k hk i hi hio hjo
  have := h (j + 1) (by simpa using Nat.succ_lt_succ hj) (k + 1)
    (by omega) (i + 1) (by omega) (by simpa using hio) (by simpa using hjo)
  simpa using this

theorem contigRuns_append_left {l l' : List Seg} (h : ContigRuns (l ++ l')) :
    ContigRuns l := by
  intro j hj k hk i hi hio
  have hj' : j < (l ++ l').length := by
    rw [List.length_append]
    omega
  have e : ∀ q, q < l.length →
      (l ++ l').getD q ⟨0, none, none⟩ = l.getD q ⟨0, none, none⟩ := by
    intro q hq
    rw [List.getD_append _ _ _ _ hq]
  have := h j hj' k hk i hi (by rw [e i (by omega), e j hj]; exact hio)
  rw [e k (by omega), e i (by omega)] at this
  exact this

/-- Characterization of `_get_str_index_ptr`'s scan for one `str_index`,
under contiguity of that index's occurrences across `last_seen` and the
scanned batch: the resulting entry is the first occurrence (shifted by the
offset), except that a run continuing out of `last_seen` leaves the
accumulator untouched. -/
theorem getStrIndexPtrGo_lookup (idx : Nat) :
    ∀ (B : List Seg) (acc : List (Nat × Nat)) (lastSeen : Option Seg) (i : Nat),
    NoGapIdx idx (lastSeen.toList ++ B) →
    dlookup idx (getStrIndexPtrGo acc lastSeen i B) =
      match firstPos B idx with
      | none => dlookup idx acc
      | some p =>
          if p = 0 ∧ lastSeen.map Seg.strIdx = some idx then dlookup idx acc
          else some (i + p) := by
  intro B
  induction B with
  | nil =>
    intro acc lastSeen i _
    simp [getStrIndexPtrGo, firstPos]
  | cons s rest ih =>
    intro acc lastSeen i hgap
    have hgap' : NoGapIdx idx ((some s).toList ++ rest) := by
      cases lastSeen with
      | none => simpa using hgap
      | some t =>
        have htail : NoGapIdx idx (s :: rest) := by
          apply noGapIdx_tail (s := t)
          simpa using hgap
        simpa using htail
    have hrest_excl : s.strIdx = idx → ∀ p, firstPos rest idx = some p → p = 0 := by
      intro hs p hp
      by_contra hne
      obtain ⟨hplen, hpidx, hpfirst⟩ := firstPos_some_spec rest idx p hp
      have h0 : (rest.getD 0 ⟨0, none, none⟩).strIdx ≠ idx := hpfirst 0 (by omega)
      have hmid := hgap' (p + 1) (by simp only [Option.toList_some,
        List.singleton_append, List.length_cons]; omega) 1 (by omega) 0 (by omega)
        (by simpa using hs) (by simpa using hpidx)
      apply h0
      simpa using hmid
    rw [show getStrIndexPtrGo acc lastSeen i (s :: rest) =
      getStrIndexPtrGo (if newRunFlag lastSeen s then dictSet acc s.strIdx i else acc)
        (some s) (i + 1) rest from rfl]
    by_cases hs : s.strIdx = idx
    · have hfp : firstPos (s :: rest) idx = some 0 := by
        rw [show firstPos (s :: rest) idx = (if s.strIdx = idx then some 0 else
          (firstPos rest idx).map (· + 1)) from rfl]
        rw [if_pos hs]
      rw [hfp]
      have hself : dlookup idx (dictSet acc idx i) = some i :=
        dictSet_lookup_self acc idx i
      cases lastSeen with
      | some t =>
        by_cases hts : t.strIdx = idx
        · -- continuing a run out of `last_seen`: no new entry for `idx`
          have hnew : newRunFlag (some t) s = false := by
            simp [newRunFlag, hs, hts]
          rw [hnew]
          simp only [Bool.false_eq_true, if_false]
          rw [ih acc (some s) (i + 1) hgap']
          cases hrest : firstPos rest idx with
          | none => simp [hts]
          | some p =>
            have hp0 : p = 0 := hrest_excl hs p hrest
            subst hp0
            simp [hts, hs]
        · -- a new run of `idx` begins at position `i`
          have hnew : newRunFlag (some t) s = true := by
            simp only [newRunFlag, bne_iff_ne, ne_eq, decide_not]
            simp only [hs]
            simpa using fun habs => hts habs.symm
          rw [hnew]
          simp only [if_true]
          rw [ih (dictSet acc s.strIdx i) (some s) (i + 1) hgap']
          cases hrest : firstPos rest idx with
          | none => simp [hts, hs, hself]
          | some p =>
            have hp0 : p = 0 := hrest_excl hs p hrest
            subst hp0
            simp [hts, hs, hself]
      | none =>
        have hnew : newRunFlag none s = true := rfl
        rw [hnew]
        simp only [if_true]
        rw [ih (dictSet acc s.strIdx i) (some s) (i + 1) hgap']
        cases hrest : firstPos rest idx with
        | none => simp [hs, hself]
        | some p =>
          have hp0 : p = 0 := hrest_excl hs p hrest
          subst hp0
          simp [hs, hself]
    · -- `s` does not bear `idx`: the accumulator entry for `idx` is unchanged
      have hfp : firstPos (s :: rest) idx = (firstPos rest idx).map (· + 1) := by
        rw [show firstPos (s :: rest) idx = (if s.strIdx = idx then some 0 else
          (firstPos rest idx).map (· + 1)) from rfl]
        rw [if_neg hs]
      rw [hfp]
      have hacc : dlookup idx (if newRunFlag lastSeen s then dictSet acc s.strIdx i
          else acc) = dlookup idx acc := by
        cases newRunFlag lastSeen s
        · simp
        · simpa using dictSet_lookup_ne acc s.strIdx i idx (fun h => hs h.symm)
      rw [ih _ (some s) (i + 1) hgap']
      cases hrest : firstPos rest idx with
      | none =>
        rw [Option.map_none']
        exact hacc
      | some p =>
        simp only [Option.map_some', Option.some.injEq]
        simp [hs, hacc]
        omega

theorem mem_keys_lookup_isSome (d : List (Nat × Nat)) (k : Nat)
    (h : k ∈ d.map Prod.fst) : (dlookup k d).isSome := by
  induction d with
  | nil => simp at h
  | cons p t ih =>
    rw [dlookup]
    by_cases hp : p.1 = k
    · rw [if_pos hp]
      rfl
    · rw [if_neg hp]
      apply ih
      rcases List.mem_cons.1 h with he | hm
      · exact absurd he.symm hp
      · exact hm

theorem dictSet_keys_nodup (d : List (Nat × Nat)) (k v : Nat)
    (h : (d.map Prod.fst).Nodup) : ((dictSet d k v).map Prod.fst).Nodup := by
  unfold dictSet
  split
  · have hkeys : (d.map (fun p => if p.1 = k then (k, v) else p)).map Prod.fst =
        d.map Prod.fst := by
      rw [List.map_map]
      apply List.map_congr_left
      intro p _
      by_cases hp : p.1 = k
      · simp [hp]
      · simp [hp]
    rw [hkeys]
    exact h
  · rename_i hnone
    have hnm : k ∉ d.map Prod.fst := by
      intro hm
      exact hnone (mem_keys_lookup_isSome d k hm)
    rw [List.map_append]
    simp only [List.map_cons, List.map_nil]
    rw [List.nodup_append]
    refine ⟨h, List.nodup_singleton k, ?_⟩
    intro a ha hk
    rw [List.mem_singleton] at hk
    subst hk
    exact hnm ha

theorem getStrIndexPtrGo_keys_nodup (B : List Seg) :
    ∀ (acc : List (Nat × Nat)) (lastSeen : Option Seg) (i : Nat),
    (acc.map Prod.fst).Nodup →
    ((getStrIndexPtrGo acc lastSeen i B).map Prod.fst).Nodup := by
  induction B with
  | nil =>
    intro acc lastSeen i h
    exact h
  | cons s rest ih =>
    intro acc lastSeen i h
    rw [show getStrIndexPtrGo acc lastSeen i (s :: rest) =
      getStrIndexPtrGo (if newRunFlag lastSeen s then dictSet acc s.strIdx i else acc)
        (some s) (i + 1) rest from rfl]
    apply ih
    cases newRunFlag lastSeen s
    · simpa using h
    · simpa using dictSet_keys_nodup acc s.strIdx i h

theorem dictUpdate_keys_nodup (other d : List (Nat × Nat))
    (h : (d.map Prod.fst).Nodup) : ((dictUpdate d other).map Prod.fst).Nodup := by
  induction other generalizing d with
  | nil => exact h
  | cons p t ih =>
    rw [show dictUpdate d (p :: t) = dictUpdate (dictSet d p.1 p.2) t from rfl]
    exact ih _ (dictSet_keys_nodup d p.1 p.2 h)

theorem getLast?_eq_getD {L : List Seg} (h : L ≠ []) :
    L.getLast? = some (L.getD (L.length - 1) ⟨0, none, none⟩) := by
  rw [List.getLast?_eq_getElem?, List.getD_eq_getElem?_getD]
  cases hg : L[L.length - 1]? with
  | none =>
    rw [List.getElem?_eq_none_iff] at hg
    have : L.length ≠ 0 := fun h0 => h (List.length_eq_zero.1 h0)
    omega
  | some a => rfl

theorem noGapIdx_append_last {idx : Nat} {L B : List Seg} (hL : L ≠ [])
    (h : NoGapIdx idx (L ++ B)) :
    NoGapIdx idx (L.getD (L.length - 1) ⟨0, none, none⟩ :: B) := by
  intro j hj k hk i hi hio hjo
  have hn : 1 ≤ L.length := by
    cases L with
    | nil => exact absurd rfl hL
    | cons a t => simp
  rw [List.length_cons] at hj
  have htrans : ∀ q, q < B.length + 1 →
      ((L.getD (L.length - 1) ⟨0, none, none⟩ :: B).getD q ⟨0, none, none⟩) =
        ((L ++ B).getD (if q = 0 then L.length - 1 else L.length + (q - 1))
          ⟨0, none, none⟩) := by
    intro q hq
    cases q with
    | zero =>
      rw [List.getD_cons_zero, if_pos rfl]
      rw [List.getD_append _ _ _ _ (by omega)]
    | succ q' =>
      rw [List.getD_cons_succ, if_neg (Nat.succ_ne_zero q')]
      rw [List.getD_append_right _ _ _ _ (by omega)]
      congr 1
      omega
  rw [htrans i (by omega)] at hio
  rw [htrans j (by omega)] at hjo
  rw [htrans k (by omega)]
  have hk1 : 1 ≤ k := by omega
  have hj1 : 1 ≤ j := by omega
  rw [if_neg (by omega : ¬ k = 0), if_neg (by omega : ¬ j = 0)] at *
  by_cases hi0 : i = 0
  · subst hi0
    rw [if_pos rfl] at hio
    exact h (L.length + (j - 1)) (by rw [List.length_append]; omega)
      (L.length + (k - 1)) (by omega) (L.length - 1) (by omega) hio hjo
  · rw [if_neg hi0] at hio
    exact h (L.length + (j - 1)) (by rw [List.length_append]; omega)
      (L.length + (k - 1)) (by omega) (L.length + (i - 1)) (by omega) hio hjo

theorem appendSeg_ptr_spec (S : Sgmt) (s : Seg)
    (hprev : ContigRuns S.segs → ∀ idx, dlookup idx S.ptr = firstPos S.segs idx)
    (hc : ContigRuns (S.segs ++ [s])) :
    ∀ idx, dlookup idx (appendSeg S s).ptr = firstPos (S.segs ++ [s]) idx := by
  intro idx
  have hspec := hprev (contigRuns_append_left hc)
  show dlookup idx (if S.segs.length = 0 ∨
    (S.segs.getLast?).map Seg.strIdx ≠ some s.strIdx
    then dictSet S.ptr s.strIdx S.segs.length else S.ptr) = _
  by_cases hcond : S.segs.length = 0 ∨ (S.segs.getLast?).map Seg.strIdx ≠ some s.strIdx
  · rw [if_pos hcond]
    by_cases hidx : idx = s.strIdx
    · subst hidx
      rw [dictSet_lookup_self]
      have hnone : firstPos S.segs s.strIdx = none := by
        cases hfl : firstPos S.segs s.strIdx with
        | none => rfl
        | some p =>
          exfalso
          obtain ⟨hp1, hp2, -⟩ := firstPos_some_spec S.segs s.strIdx p hfl
          have hne : S.segs ≠ [] := by
            intro h0
            rw [h0] at hp1
            simp at hp1
          have hlast : (S.segs.getD (S.segs.length - 1) ⟨0, none, none⟩).strIdx
              ≠ s.strIdx := by
            rcases hcond with h0 | hL
            · omega
            · intro habs
              apply hL
              rw [getLast?_eq_getD hne]
              simpa using habs
          by_cases hp : p = S.segs.length - 1
          · exact hlast (hp ▸ hp2)
          · have hmid := hc S.segs.length
              (by rw [List.length_append]; simp) (S.segs.length - 1) (by omega)
              p (by omega)
              (by rw [List.getD_append _ _ _ _ (by omega),
                    List.getD_append_right _ _ _ _ (by omega)]
                  simpa [List.getD] using hp2)
            apply hlast
            rw [List.getD_append _ _ _ _ (by omega)] at hmid
            rw [hmid]
            rw [List.getD_append _ _ _ _ (by omega)]
            exact hp2
      rw [firstPos_append, hnone]
      show _ = (firstPos [s] s.strIdx).map (· + S.segs.length)
      rw [show firstPos [s] s.strIdx = some 0 from by simp [firstPos]]
      simp
    · rw [dictSet_lookup_ne _ _ _ _ hidx, hspec idx, firstPos_append]
      cases hfl : firstPos S.segs idx with
      | some p => rfl
      | none =>
        rw [show firstPos [s] idx = none from by
          simp only [firstPos]
          rw [if_neg (fun h => hidx h.symm)]
          rfl]
        rfl
  · rw [if_neg hcond]
    push_neg at hcond
    obtain ⟨hlen, hlast⟩ := hcond
    rw [hspec idx, firstPos_append]
    cases hfl : firstPos S.segs idx with
    | some p => rfl
    | none =>
      have hne : s.strIdx ≠ idx := by
        intro habs
        have hne0 : S.segs ≠ [] := fun h0 => hlen (by rw [h0]; rfl)
        rw [getLast?_eq_getD hne0] at hlast
        have hmem : S.segs.getD (S.segs.length - 1) ⟨0, none, none⟩ ∈ S.segs := by
          rw [List.getD_eq_getElem?_getD]
          have hlt : S.segs.length - 1 < S.segs.length := by
            have : S.segs.length ≠ 0 := fun h0 => hne0 (List.length_eq_zero.1 h0)
            omega
          rw [List.getElem?_eq_getElem hlt]
          exact List.getElem_mem _
        have := (firstPos_none_iff S.segs idx).1 hfl _ hmem
        apply this
        have : (S.segs.getD (S.segs.length - 1) ⟨0, none, none⟩).strIdx = s.strIdx := by
          simpa using hlast
        rw [this, habs]
      rw [show firstPos [s] idx = none from by simp [firstPos, hne]]
      rfl

theorem extendSeg_ptr_spec (S : Sgmt) (batch : List Seg)
    (hnd : (S.ptr.map Prod.fst).Nodup)
    (hprev : ContigRuns S.segs → ∀ idx, dlookup idx S.ptr = firstPos S.segs idx)
    (hc : ContigRuns (S.segs ++ batch)) :
    ∀ idx, dlookup idx (extendSeg S batch).ptr = firstPos (S.segs ++ batch) idx := by
  intro idx
  have hspec := hprev (contigRuns_append_left hc)
  show dlookup idx (if S.segs.length > 0 then
    dictUpdate (getStrIndexPtr batch S.segs.getLast? S.segs.length) S.ptr
    else getStrIndexPtr batch none 0) = _
  by_cases hlen : S.segs.length > 0
  · rw [if_pos hlen]
    have hne0 : S.segs ≠ [] := by
      intro h0
      rw [h0] at hlen
      simp at hlen
    rw [dictUpdate_lookup S.ptr _ hnd idx, hspec idx, firstPos_append]
    cases hfl : firstPos S.segs idx with
    | some p => rfl
    | none =>
      have hnoidx : ∀ x ∈ S.segs, x.strIdx ≠ idx := (firstPos_none_iff S.segs idx).1 hfl
      have hlast_ne : (S.segs.getD (S.segs.length - 1) ⟨0, none, none⟩).strIdx ≠ idx := by
        apply hnoidx
        rw [List.getD_eq_getElem?_getD, List.getElem?_eq_getElem (by omega)]
        exact List.getElem_mem _
      rw [show getStrIndexPtr batch S.segs.getLast? S.segs.length =
        getStrIndexPtrGo [] S.segs.getLast? S.segs.length batch from rfl]
      rw [getLast?_eq_getD hne0]
      rw [getStrIndexPtrGo_lookup idx batch [] _ S.segs.length
        (by simpa using noGapIdx_append_last hne0 (contigRuns_noGapIdx hc idx))]
      cases hfb : firstPos batch idx with
      | none => rfl
      | some p =>
        show (if p = 0 ∧ (some (S.segs.getD (S.segs.length - 1)
              ⟨0, none, none⟩)).map Seg.strIdx = some idx
            then dlookup idx ([] : List (Nat × Nat))
            else some (S.segs.length + p)) = some (p + S.segs.length)
        rw [if_neg (by
          rintro ⟨-, habs⟩
          simp only [Option.map_some', Option.some.injEq] at habs
          exact hlast_ne habs)]
        exact congrArg some (by omega)
  · rw [if_neg hlen]
    have h0 : S.segs = [] := List.length_eq_zero.1 (by omega)
    rw [h0, List.nil_append]
    rw [show getStrIndexPtr batch none 0 = getStrIndexPtrGo [] none 0 batch from rfl]
    rw [getStrIndexPtrGo_lookup idx batch [] none 0
      (by rw [h0, List.nil_append] at hc
          simpa using contigRuns_noGapIdx hc idx)]
    cases hfb : firstPos batch idx with
    | none => rfl
    | some p =>
      show (if p = 0 ∧ (none : Option Seg).map Seg.strIdx = some idx
          then dlookup idx ([] : List (Nat × Nat))
          else some (0 + p)) = some p
      rw [if_neg (by rintro ⟨-, habs⟩; simp at habs)]
      exact congrArg some (by omega)

theorem buildSgmt_invariant (ops : List SegOp) :
    ∀ S : Sgmt, (S.ptr.map Prod.fst).Nodup →
    (ContigRuns S.segs → ∀ idx, dlookup idx S.ptr = firstPos S.segs idx) →
    ((ops.foldl applyOp S).ptr.map Prod.fst).Nodup ∧
    (ContigRuns (ops.foldl applyOp S).segs →
      ∀ idx, dlookup idx (ops.foldl applyOp S).ptr =
        firstPos (ops.foldl applyOp S).segs idx) := by
  induction ops with
  | nil =>
    intro S hnd hprev
    exact ⟨hnd, hprev⟩
  | cons op rest ih =>
    intro S hnd hprev
    rw [List.foldl_cons]
    apply ih
    · cases op with
      | app s =>
        show (((if S.segs.length = 0 ∨ (S.segs.getLast?).map Seg.strIdx ≠ some s.strIdx
          then dictSet S.ptr s.strIdx S.segs.length else S.ptr)).map Prod.fst).Nodup
        split
        · exact dictSet_keys_nodup S.ptr s.strIdx S.segs.length hnd
        · exact hnd
      | ext b =>
        show (((if S.segs.length > 0 then
          dictUpdate (getStrIndexPtr b S.segs.getLast? S.segs.length) S.ptr
          else getStrIndexPtr b none 0)).map Prod.fst).Nodup
        split
        · exact dictUpdate_keys_nodup S.ptr _
            (getStrIndexPtrGo_keys_nodup b [] S.segs.getLast? S.segs.length (by simp))
        · exact getStrIndexPtrGo_keys_nodup b [] none 0 (by simp)
    · cases op with
      | app s => exact fun hc => appendSeg_ptr_spec S s hprev hc
      | ext b => exact fun hc => extendSeg_ptr_spec S b hnd hprev hc

/-- **C5 amended**.  After any sequence of `append` and `extend` operations
building a segmentation `S` in which every `str_index` occupies a single
contiguous run of positions, `str_index_ptr[i]` equals the position of the
first segment of `S` bearing `str_index` `i` (and has no entry for absent
indices).  When a `str_index` recurs in a non-adjacent run, `append`
overwrites the entry with the start of the newest run (see the
counterexample), so the claim holds only under the contiguity restriction. -/
theorem c5_str_index_ptr_first_position (ops : List SegOp)
    (hc : ContigRuns (buildSgmt ops).segs) (idx : Nat) :
    dlookup idx (buildSgmt ops).ptr = firstPos (buildSgmt ops).segs idx :=
  (buildSgmt_invariant ops emptySgmt (by exact List.nodup_nil)
    (fun _ _ => rfl)).2 hc idx

/-- **C5 witness**: a concrete `append`/`extend` history with contiguous
runs (`str_index`es 0, 0, 2, 2, 5), checked at an index present from the
start (0), one added by `extend` (2 and 5), and an absent one (7). -/
theorem c5_str_index_ptr_first_position_witness :
    ContigRuns (buildSgmt [SegOp.app ⟨0, some 0, some 1⟩,
      SegOp.ext [⟨0, some 1, some 2⟩, ⟨2, some 0, some 1⟩],
      SegOp.app ⟨2, some 1, some 2⟩, SegOp.ext [⟨5, some 0, some 3⟩]]).segs ∧
    dlookup 0 (buildSgmt [SegOp.app ⟨0, some 0, some 1⟩,
      SegOp.ext [⟨0, some 1, some 2⟩, ⟨2, some 0, some 1⟩],
      SegOp.app ⟨2, some 1, some 2⟩, SegOp.ext [⟨5, some 0, some 3⟩]]).ptr =
      firstPos (buildSgmt [SegOp.app ⟨0, some 0, some 1⟩,
        SegOp.ext [⟨0, some 1, some 2⟩, ⟨2, some 0, some 1⟩],
        SegOp.app ⟨2, some 1, some 2⟩, SegOp.ext [⟨5, some 0, some 3⟩]]).segs 0 ∧
    dlookup 2 (buildSgmt [SegOp.app ⟨0, some 0, some 1⟩,
      SegOp.ext [⟨0, some 1, some 2⟩, ⟨2, some 0, some 1⟩],
      SegOp.app ⟨2, some 1, some 2⟩, SegOp.ext [⟨5, some 0, some 3⟩]]).ptr =
      firstPos (buildSgmt [SegOp.app ⟨0, some 0, some 1⟩,
        SegOp.ext [⟨0, some 1, some 2⟩, ⟨2, some 0, some 1⟩],
        SegOp.app ⟨2, some 1, some 2⟩, SegOp.ext [⟨5, some 0, some 3⟩]]).segs 2 ∧
    dlookup 7 (buildSgmt [SegOp.app ⟨0, some 0, some 1⟩,
      SegOp.ext [⟨0, some 1, some 2⟩, ⟨2, some 0, some 1⟩],
      SegOp.app ⟨2, some 1, some 2⟩, SegOp.ext [⟨5, some 0, some 3⟩]]).ptr =
      firstPos (buildSgmt [SegOp.app ⟨0, some 0, some 1⟩,
        SegOp.ext [⟨0, some 1, some 2⟩, ⟨2, some 0, some 1⟩],
        SegOp.app ⟨2, some 1, some 2⟩, SegOp.ext [⟨5, some 0, some 3⟩]]).segs 7 :=
  ⟨by decide,
   c5_str_index_ptr_first_position _ (by decide) 0,
   c5_str_index_ptr_first_position _ (by decide) 2,
   c5_str_index_ptr_first_position _ (by decide) 7⟩

/-- **C7**.  For every frequency dictionary with value list `freqs`,
`N = freqs.sum` and subsample size `k ≤ N`,
`get_expected_subsample_variety` returns
`|support| − Σ_v C(N−v, k) / C(N, k)` (exact binomial coefficients, the
guarded `v > N−k` branch of `_prob_no_occurrence` agreeing with the vanishing
binomial), and it errors when `k > N`. -/
theorem c7_expected_subsample_variety (freqs : List Nat) (k : Nat)
    (hk : k ≤ freqs.sum) :
    getExpectedSubsampleVariety freqs k =
      Except.ok ((freqs.length : ℚ) -
        (freqs.map (fun v =>
          ((freqs.sum - v).choose k : ℚ) / (freqs.sum.choose k : ℚ))).sum) ∧
    (∀ k', freqs.sum < k' →
      ∃ msg, getExpectedSubsampleVariety freqs k' = Except.error msg) := by
  constructor
  · unfold getExpectedSubsampleVariety
    rw [if_neg (by omega)]
    refine congrArg Except.ok (congrArg (fun x => (freqs.length : ℚ) - x)
      (congrArg List.sum ?_))
    apply List.map_congr_left
    intro v hv
    have hvle : v ≤ freqs.sum := List.single_le_sum (fun x _ => Nat.zero_le x) v hv
    unfold probNoOccurrence
    split
    · rename_i hgt
      have : freqs.sum - v < k := by omega
      rw [Nat.choose_eq_zero_of_lt this]
      simp
    · rfl
  · intro k' hk'
    refine ⟨"Not enough elements in dictionary", ?_⟩
    unfold getExpectedSubsampleVariety
    rw [if_pos (by omega)]

/-! ### Claim C9: `sample`, systematic mode -/

/-- Auxiliary: filtering an enumerated list on the index and projecting the
elements is the same as filtering the range of positions and looking the
surviving positions up. -/
theorem enumFrom_filter_map_snd {α : Type} (l : List α) :
    ∀ (n : ℕ) (p : ℕ → Bool),
    (((List.enumFrom n l).filter (fun q => p q.1)).map Prod.snd) =
      ((List.range l.length).filter (fun i => p (n + i))).filterMap l.get? := by
  induction l with
  | nil => intro n p; simp
  | cons a t ih =>
    intro n p
    have hstep :
        ((List.range t.length).filter (fun i => p (n + (i + 1)))).filterMap t.get?
          = (((List.enumFrom (n + 1) t).filter (fun q => p q.1)).map Prod.snd) := by
      rw [ih (n + 1) p]
      refine congrArg _ (List.filter_congr ?_)
      intro i _
      have h : n + (i + 1) = (n + 1) + i := by omega
      rw [h]
    rw [List.enumFrom_cons, List.filter_cons]
    rw [List.length_cons, List.range_succ_eq_map, List.filter_cons]
    by_cases hp : p n
    · rw [if_pos hp, if_pos (show p (n + 0) = true from hp)]
      rw [List.map_cons, List.filterMap_cons]
      simp only [List.get?_cons_zero]
      congr 1
      rw [List.filter_map, List.filterMap_map]
      exact hstep.symm
    · rw [if_neg hp, if_neg (show ¬ p (n + 0) = true from hp)]
      rw [List.filter_map, List.filterMap_map]
      exact hstep.symm

/-- Auxiliary: for `x ≥ 1` not a half-integer, `iround x` is the Mathlib
`round x`. -/
theorem iround_eq_round {x : ℚ} (hx : 1 ≤ x) (hf : x - ⌊x⌋ ≠ 1 / 2) :
    iround x = round x := by
  have hfl : (1 : ℤ) ≤ ⌊x⌋ := Int.le_floor.2 (by exact_mod_cast hx)
  have hr1 : ⌊x⌋ ≤ round x := by
    rw [round_eq]
    exact Int.floor_mono (by linarith)
  have hrone : (1 : ℤ) ≤ round x := le_trans hfl hr1
  unfold iround pyRound pyInt
  rw [if_neg hf]
  have hposx : (0 : ℚ) < x := by linarith
  have hround1 : (1 : ℚ) ≤ (round x : ℚ) := by exact_mod_cast hrone
  rw [if_pos (by linarith : (0 : ℚ) ≤ (round x : ℚ) - 1 / 2), if_pos hposx]
  have hneg : ⌊(-(1 / 2) : ℚ)⌋ = -1 := by norm_num
  rw [show (round x : ℚ) - 1 / 2 = -(1 / 2) + (round x : ℚ) by ring]
  rw [Int.floor_add_int, hneg]
  omega

/-- Auxiliary: when `x` is not a half-integer, `round x` is strictly nearer
to `x` than any other integer. -/
theorem round_strictly_nearest {x : ℚ} (hf : x - ⌊x⌋ ≠ 1 / 2) (m : ℤ)
    (hm : m ≠ round x) : |x - (round x : ℚ)| < |x - (m : ℚ)| := by
  have hf0 : (⌊x⌋ : ℚ) ≤ x := Int.floor_le x
  have hf1 : x < (⌊x⌋ : ℚ) + 1 := Int.lt_floor_add_one x
  have hhalf : |x - (round x : ℚ)| < 1 / 2 := by
    rcases lt_or_gt_of_ne hf with hlt | hgt
    · have hre : round x = ⌊x⌋ := by
        rw [round_eq, Int.floor_eq_iff]
        constructor
        · linarith
        · linarith
      rw [hre, abs_of_nonneg (by linarith)]
      linarith
    · have hre : round x = ⌊x⌋ + 1 := by
        rw [round_eq, Int.floor_eq_iff]
        constructor
        · push_cast
          linarith
        · push_cast
          linarith
      rw [hre]
      rw [abs_of_nonpos (by push_cast; linarith)]
      push_cast
      linarith
  have hint : (1 : ℚ) ≤ |(round x : ℚ) - (m : ℚ)| := by
    have hz : round x - m ≠ 0 := fun h => hm (by omega)
    have h1 : (1 : ℤ) ≤ |round x - m| := Int.one_le_abs hz
    calc (1 : ℚ) = ((1 : ℤ) : ℚ) := by norm_num
      _ ≤ ((|round x - m| : ℤ) : ℚ) := by exact_mod_cast h1
      _ = |(round x : ℚ) - (m : ℚ)| := by push_cast [Int.cast_abs]; ring_nf
  have htri : |(round x : ℚ) - (m : ℚ)| ≤ |x - (round x : ℚ)| + |x - (m : ℚ)| := by
    calc |(round x : ℚ) - (m : ℚ)|
        ≤ |(round x : ℚ) - x| + |x - (m : ℚ)| := abs_sub_le _ _ _
      _ = |x - (round x : ℚ)| + |x - (m : ℚ)| := by rw [abs_sub_comm]
  linarith

/-- **C9 counterexample**.  For a segmentation of length 8 and
`sample_size` 3, the code systematic mode selects indices `[0, 3, 6]`
(stride `iround(8/3) = 3`), whereas the claim stride `⌊8/3⌋ = 2` would
select `[0, 2, 4, 6]`. -/
theorem c9_counterexample :
    systematicIndices 8 3 = [0, 3, 6] ∧ (8 : ℕ) / 3 = 2 ∧
    systematicIndices 8 3 ≠
      (List.range 8).filter (fun i => i % ((8 : ℕ) / 3) = 0) := by
  have hx : ((8 : ℕ) : ℚ) / ((3 : ℕ) : ℚ) = 8 / 3 := by norm_num
  have hfl : ⌊(8 / 3 : ℚ)⌋ = 2 := by norm_num
  have hstep : systematicStep 8 3 = 3 := by
    unfold systematicStep
    rw [hx, iround_eq_round (by norm_num) (by rw [hfl]; norm_num), round_eq]
    norm_num
  have hs : systematicIndices 8 3 = [0, 3, 6] := by
    unfold systematicIndices
    rw [hstep]
    decide
  exact ⟨hs, by norm_num, by rw [hs]; decide⟩

/-- **C9 amended**.  For a segmentation of length `L` and `sample_size` `k`
with `1 ≤ k ≤ L` and `L/k` not a half-integer, systematic sampling uses the
stride `s = iround(L/k)` — the integer strictly nearest to `L/k`, not
`⌊L/k⌋` — and selects exactly the indices `0, s, 2s, …` below `L` (the
multiples of `s`), placing the segments at those indices (in order) in the
first output and all remaining segments in the `NEG_`-labelled second
output.  (Exact rational arithmetic stands in for the source binary
floating point in `1 / (sample_size / len)`.) -/
theorem c9_sample_systematic (segs : List Seg) (k : ℕ) (label : String)
    (hk1 : 1 ≤ k) (hkL : k ≤ segs.length)
    (hnt : 2 * (segs.length % k) ≠ k) :
    systematicStep segs.length k = round ((segs.length : ℚ) / k) ∧
    (∀ m : ℤ, m ≠ systematicStep segs.length k →
      |(segs.length : ℚ) / k - (systematicStep segs.length k : ℚ)| <
        |(segs.length : ℚ) / k - (m : ℚ)|) ∧
    sampleSystematic segs k label =
      ((label, (systematicIndices segs.length k).filterMap segs.get?),
       ("NEG_" ++ label,
        ((List.range segs.length).filter
          (fun i => ¬ i % (systematicStep segs.length k).toNat = 0)).filterMap
            segs.get?)) := by
  have hk0 : (0 : ℚ) < (k : ℚ) := by exact_mod_cast hk1
  set L := segs.length with hL
  set x : ℚ := (L : ℚ) / (k : ℚ) with hxdef
  have hx1 : 1 ≤ x := by
    rw [hxdef, le_div_iff₀ hk0, one_mul]
    exact_mod_cast hkL
  have hfr : x - ⌊x⌋ ≠ 1 / 2 := by
    intro h
    set m := ⌊x⌋ with hm
    have hxeq : x = (m : ℚ) + 1 / 2 := by linarith
    rw [hxdef, div_eq_iff (ne_of_gt hk0)] at hxeq
    have h2 : (2 * (L : ℤ)) = (k : ℤ) * (2 * m + 1) := by
      have h2q : (2 * (L : ℚ)) = (k : ℚ) * (2 * (m : ℚ) + 1) := by
        ring_nf
        ring_nf at hxeq
        linarith
      exact_mod_cast h2q
    have hk1z : (1 : ℤ) ≤ (k : ℤ) := by exact_mod_cast hk1
    have hj : (k : ℤ) = 2 * ((L : ℤ) - (k : ℤ) * m) := by linarith
    set j : ℤ := (L : ℤ) - (k : ℤ) * m with hjd
    have hj0 : 0 < j := by omega
    have hjk : j < (k : ℤ) := by omega
    have hLk : (L : ℤ) % (k : ℤ) = j := by
      have hLj : (L : ℤ) = j + (k : ℤ) * m := by
        rw [hjd]
        ring
      rw [hLj, Int.add_mul_emod_self_left]
      exact Int.emod_eq_of_lt (le_of_lt hj0) hjk
    apply hnt
    have hcastmod : ((L % k : ℕ) : ℤ) = (L : ℤ) % (k : ℤ) := by push_cast; rfl
    omega
  have hstep : systematicStep L k = round x := by
    unfold systematicStep
    rw [← hxdef] at *
    exact iround_eq_round hx1 hfr
  refine ⟨hstep, ?_, ?_⟩
  · intro mm hmm
    rw [hstep]
    exact round_strictly_nearest hfr mm (by rw [← hstep]; exact hmm)
  · unfold sampleSystematic
    refine congrArg₂ Prod.mk (congrArg (Prod.mk label) ?_)
      (congrArg (Prod.mk ("NEG_" ++ label)) ?_)
    · have h1 := enumFrom_filter_map_snd segs 0
        (fun i => decide (i ∈ systematicIndices segs.length k))
      refine h1.trans ?_
      conv_rhs => rw [show systematicIndices L k =
        (List.range L).filter (fun i => decide (i % (systematicStep L k).toNat = 0))
        from rfl]
      congr 1
      apply List.filter_congr
      intro i hi
      simp only [Nat.zero_add, decide_eq_decide]
      simp [systematicIndices, List.mem_filter, hi]
    · have h1 := enumFrom_filter_map_snd segs 0
        (fun i => decide (i ∉ systematicIndices segs.length k))
      refine h1.trans ?_
      congr 1
      apply List.filter_congr
      intro i hi
      simp only [Nat.zero_add, decide_eq_decide]
      simp [systematicIndices, List.mem_filter, hi]

/-- **C9 witness**: the amended theorem applied to a concrete 8-segment
segmentation with `sample_size` 3: stride 3, positive sample at indices
0, 3, 6, remainder in the `NEG_` output. -/
theorem c9_sample_systematic_witness :
    ((1 : ℕ) ≤ 3 ∧ 3 ≤ (List.replicate 8 (⟨0, some 0, some 1⟩ : Seg)).length ∧
      2 * ((List.replicate 8 (⟨0, some 0, some 1⟩ : Seg)).length % 3) ≠ 3) ∧
    sampleSystematic (List.replicate 8 (⟨0, some 0, some 1⟩ : Seg)) 3 "sampled_data" =
      (("sampled_data",
        (systematicIndices (List.replicate 8 (⟨0, some 0, some 1⟩ : Seg)).length 3).filterMap
          (List.replicate 8 (⟨0, some 0, some 1⟩ : Seg)).get?),
       ("NEG_" ++ "sampled_data",
        ((List.range (List.replicate 8 (⟨0, some 0, some 1⟩ : Seg)).length).filter
          (fun i => ¬ i %
            (systematicStep (List.replicate 8 (⟨0, some 0, some 1⟩ : Seg)).length 3).toNat
              = 0)).filterMap
          (List.replicate 8 (⟨0, some 0, some 1⟩ : Seg)).get?)) :=
  ⟨⟨by decide, by decide, by decide⟩,
    (c9_sample_systematic (List.replicate 8 ⟨0, some 0, some 1⟩) 3 "sampled_data"
      (by decide) (by decide) (by decide)).2.2⟩

/-- **C7 witness**: the concrete example from the spec,
`get_expected_subsample_variety({'a':2,'b':1,'c':1}, 2) = 11/6`, obtained by
applying `c7_expected_subsample_variety` at `freqs = [2,1,1]`, `k = 2`. -/
theorem c7_expected_subsample_variety_witness :
    (2 ≤ [2, 1, 1].sum) ∧
    getExpectedSubsampleVariety [2, 1, 1] 2 = Except.ok (11 / 6 : ℚ) := by
  refine ⟨by decide, ?_⟩
  have h := (c7_expected_subsample_variety [2, 1, 1] 2 (by decide)).1
  rw [h]
  norm_num [show Nat.choose 4 2 = 6 from rfl, show Nat.choose 2 2 = 1 from rfl,
    show Nat.choose 3 2 = 3 from rfl]

theorem mem_toWeightedFlat (T : IntPivot) (t : String × String × ℕ) :
    t ∈ toWeightedFlat T ↔
      t.2.1 ∈ T.rowIds ∧ t.1 ∈ T.colIds ∧
        t.2.2 = T.val t.2.1 t.1 ∧ T.val t.2.1 t.1 ≠ 0 := by
  unfold toWeightedFlat
  rw [List.mem_flatMap]
  constructor
  · rintro ⟨r, hr, hmem⟩
    rw [List.mem_filterMap] at hmem
    obtain ⟨c, hc, heq⟩ := hmem
    by_cases hz : T.val r c = 0
    · rw [if_pos hz] at heq
      exact absurd heq (by simp)
    · rw [if_neg hz] at heq
      obtain rfl : (c, r, T.val r c) = t := Option.some.inj heq
      exact ⟨hr, hc, rfl, hz⟩
  · rintro ⟨hr, hc, hval, hnz⟩
    refine ⟨t.2.1, hr, ?_⟩
    rw [List.mem_filterMap]
    refine ⟨t.1, hc, ?_⟩
    rw [if_neg hnz, ← hval]

theorem foldl_assign_all (r c : String) (v : ℕ) :
    ∀ (triples : List (String × String × ℕ)) (acc : ℕ),
    (∀ t ∈ triples, t.2.1 = r → t.1 = c → t.2.2 = v) → acc = v →
    triples.foldl (fun acc x => if x.2.1 = r ∧ x.1 = c then x.2.2 else acc) acc
      = v := by
  intro triples
  induction triples with
  | nil =>
    intro acc _ hacc
    exact hacc
  | cons t rest ih =>
    intro acc hall hacc
    rw [List.foldl_cons]
    apply ih _ (fun u hu => hall u (List.mem_cons_of_mem t hu))
    by_cases hm : t.2.1 = r ∧ t.1 = c
    · rw [if_pos hm]
      exact hall t (List.mem_cons_self t rest) hm.1 hm.2
    · rw [if_neg hm]
      exact hacc

theorem foldl_assign_mem (r c : String) (v : ℕ) :
    ∀ (triples : List (String × String × ℕ)) (acc : ℕ),
    (∀ t ∈ triples, t.2.1 = r → t.1 = c → t.2.2 = v) →
    (∃ t ∈ triples, t.2.1 = r ∧ t.1 = c) →
    triples.foldl (fun acc x => if x.2.1 = r ∧ x.1 = c then x.2.2 else acc) acc
      = v := by
  intro triples
  induction triples with
  | nil =>
    intro acc _ hex
    obtain ⟨t, ht, -⟩ := hex
    exact absurd ht (List.not_mem_nil t)
  | cons t rest ih =>
    intro acc hall hex
    rw [List.foldl_cons]
    by_cases hm : t.2.1 = r ∧ t.1 = c
    · rw [if_pos hm]
      exact foldl_assign_all r c v rest _
        (fun u hu => hall u (List.mem_cons_of_mem t hu))
        (hall t (List.mem_cons_self t rest) hm.1 hm.2)
    · rw [if_neg hm]
      apply ih _ (fun u hu => hall u (List.mem_cons_of_mem t hu))
      obtain ⟨u, hu, hum⟩ := hex
      rcases List.mem_cons.1 hu with rfl | hu'
      · exact absurd hum hm
      · exact ⟨u, hu', hum⟩

theorem foldl_assign_none (r c : String) :
    ∀ (triples : List (String × String × ℕ)) (acc : ℕ),
    (∀ t ∈ triples, ¬(t.2.1 = r ∧ t.1 = c)) →
    triples.foldl (fun acc x => if x.2.1 = r ∧ x.1 = c then x.2.2 else acc) acc
      = acc := by
  intro triples
  induction triples with
  | nil =>
    intro acc _
    rfl
  | cons t rest ih =>
    intro acc hnone
    rw [List.foldl_cons, if_neg (hnone t (List.mem_cons_self t rest))]
    exact ih acc (fun u hu => hnone u (List.mem_cons_of_mem t hu))

/-- **C3**.  For every `IntPivotCrosstab` `T`,
`T.to_weighted_flat().to_pivot()` equals `T` cell-wise: at every
`(row_id, col_id)` pair of `T` the round-tripped table holds `T`'s value,
and the round-trip produces no nonzero cell outside `T`'s nonzero cells
(any ids with a nonzero round-tripped value are ids of `T` whose cell in
`T` is nonzero). -/
theorem c3_weighted_flat_round_trip (T : IntPivot) :
    (∀ r ∈ T.rowIds, ∀ c ∈ T.colIds,
      toPivotVal (toWeightedFlat T) r c = T.val r c) ∧
    (∀ r c, toPivotVal (toWeightedFlat T) r c ≠ 0 →
      r ∈ T.rowIds ∧ c ∈ T.colIds ∧ T.val r c ≠ 0) := by
  constructor
  · intro r hr c hc
    by_cases hz : T.val r c = 0
    · rw [hz]
      unfold toPivotVal
      apply foldl_assign_none
      rintro t ht ⟨h1, h2⟩
      obtain ⟨-, -, -, hnz⟩ := (mem_toWeightedFlat T t).1 ht
      rw [h1, h2] at hnz
      exact hnz hz
    · unfold toPivotVal
      apply foldl_assign_mem
      · intro t ht h1 h2
        obtain ⟨-, -, hval, -⟩ := (mem_toWeightedFlat T t).1 ht
        rw [hval, h1, h2]
      · exact ⟨(c, r, T.val r c),
          (mem_toWeightedFlat T (c, r, T.val r c)).2 ⟨hr, hc, rfl, hz⟩, rfl, rfl⟩
  · intro r c hnz
    by_contra hcon
    apply hnz
    unfold toPivotVal
    apply foldl_assign_none
    rintro t ht ⟨h1, h2⟩
    obtain ⟨hr', hc', -, hv⟩ := (mem_toWeightedFlat T t).1 ht
    exact hcon ⟨h1 ▸ hr', h2 ▸ hc', by rw [← h1, ← h2]; exact hv⟩

theorem getD_eq_getElem_of_lt (l : List String) (i : ℕ) (h : i < l.length) :
    l.getD i "" = l[i] := by
  rw [List.getD_eq_getElem?_getD, List.getElem?_eq_getElem h]
  rfl

theorem foldl_tally_count (l : List String) :
    ∀ (f : String → ℤ) (u : String),
    (l.foldl (fun f u => updateF f u (f u + 1)) f) u = f u + l.count u := by
  induction l with
  | nil =>
    intro f u
    simp
  | cons v t ih =>
    intro f u
    rw [List.foldl_cons, ih]
    show updateF f v (f v + 1) u + (t.count u : ℤ) = f u + ((v :: t).count u : ℤ)
    unfold updateF
    rw [List.count_cons]
    by_cases hv : u = v
    · subst hv
      rw [if_pos rfl, if_pos (beq_self_eq_true u)]
      push_cast
      ring
    · rw [if_neg hv, if_neg (fun h => hv (beq_iff_eq.1 h).symm)]
      push_cast
      ring

theorem windowFreq_eq_count (us : List String) (W : ℕ)
    (hW1 : 1 ≤ W) (hWL : W ≤ us.length) :
    ∀ i, i ≤ us.length - W → ∀ u,
      windowFreqAt us W i u = (((us.drop i).take W).count u : ℤ) := by
  obtain ⟨W', rfl⟩ : ∃ W', W = W' + 1 := ⟨W - 1, by omega⟩
  intro i
  induction i with
  | zero =>
    intro _ u
    show initWindowFreq (us.take (W' + 1)) u = _
    unfold initWindowFreq
    rw [foldl_tally_count]
    simp
  | succ i ih =>
    intro hle u
    have hiW : i + (W' + 1) < us.length := by omega
    have hi : i < us.length := by omega
    have hih := ih (by omega)
    set f := windowFreqAt us (W' + 1) i with hf
    set a := us.getD i "" with ha
    set b := us.getD (i + (W' + 1)) "" with hb
    have hstep : windowFreqAt us (W' + 1) (i + 1) u =
        updateF (updateF f a (f a - 1)) b ((updateF f a (f a - 1)) b + 1) u := rfl
    have hdrop : us.drop i = a :: us.drop (i + 1) := by
      rw [ha, getD_eq_getElem_of_lt us i hi]
      exact List.drop_eq_getElem_cons hi
    have hwin0 : (us.drop i).take (W' + 1) = a :: (us.drop (i + 1)).take W' := by
      rw [hdrop, List.take_succ_cons]
    have hsplit : (us.drop (i + 1)).take (W' + 1) =
        (us.drop (i + 1)).take W' ++ [b] := by
      rw [List.take_succ]
      congr 1
      rw [List.getElem?_drop, show i + 1 + W' = i + (W' + 1) from by omega,
        List.getElem?_eq_getElem hiW]
      rw [hb, getD_eq_getElem_of_lt us _ hiW]
      rfl
    have hrel : (((us.drop (i + 1)).take (W' + 1)).count u : ℤ) =
        (((us.drop i).take (W' + 1)).count u : ℤ)
          - (if a = u then 1 else 0) + (if b = u then 1 else 0) := by
      rw [hsplit, hwin0, List.count_append, List.count_cons]
      by_cases hau : a = u <;> by_cases hbu : b = u <;>
        simp [List.count_cons, List.count_nil, hau, hbu]
    rw [hstep]
    unfold updateF
    split_ifs with hub hba hua
    · have hau : a = u := by rw [← hba, ← hub]
      rw [hih a, hrel, if_pos hau, if_pos (hub ▸ rfl)]
      rw [show ((us.drop i).take (W' + 1)).count a =
        ((us.drop i).take (W' + 1)).count u from by rw [hau]]
    · have hau : ¬ a = u := fun h => hba ((h.trans hub).symm)
      rw [hih b, hrel, if_neg hau, if_pos hub.symm]
      rw [show ((us.drop i).take (W' + 1)).count b =
        ((us.drop i).take (W' + 1)).count u from by rw [hub]]
      ring
    · have hau : a = u := hua.symm
      rw [hih a, hrel, if_pos hau, if_neg (fun h => hub (h.symm))]
      rw [show ((us.drop i).take (W' + 1)).count a =
        ((us.drop i).take (W' + 1)).count u from by rw [hau]]
      ring
    · have hau : ¬ a = u := fun h => hua h.symm
      rw [hih u, hrel, if_neg hau, if_neg (fun h => hub h.symm)]
      ring

/-- **C8**.  For every unit segmentation (given by the list `us` of its
units' contents, sequence length 1) and window size `W` with
`1 ≤ W ≤ |us|`, the diagonal cell `(u, u)` of the `IntPivotCrosstab`
produced by `cooc_in_window` equals the number of length-`W` sliding
windows over the unit list in which the unit type `u` occurs at least
once. -/
theorem c8_cooc_in_window_diagonal (us : List String) (W : ℕ) (u : String)
    (hW1 : 1 ≤ W) (hWL : W ≤ us.length) :
    coocInWindowCell us W u u =
      (((List.range (us.length - W + 1)).filter
        (fun i => decide (u ∈ (us.drop i).take W))).length : ℤ) := by
  unfold coocInWindowCell
  have hmain : ∀ l : List ℕ, (∀ i ∈ l, i ≤ us.length - W) →
      ((l.map (fun i => presenceAbsence (windowFreqAt us W i u) *
          presenceAbsence (windowFreqAt us W i u))).sum =
        ((l.filter (fun i => decide (u ∈ (us.drop i).take W))).length : ℤ)) := by
    intro l
    induction l with
    | nil =>
      intro _
      simp
    | cons i t ih =>
      intro hb
      rw [List.map_cons, List.sum_cons, List.filter_cons]
      have hcount := windowFreq_eq_count us W hW1 hWL i
        (hb i (List.mem_cons_self i t)) u
      have hrest := ih (fun j hj => hb j (List.mem_cons_of_mem i hj))
      by_cases hmem : u ∈ (us.drop i).take W
      · have hpos : 0 < ((us.drop i).take W).count u := List.count_pos_iff.2 hmem
        have hone : presenceAbsence (windowFreqAt us W i u) = 1 := by
          rw [hcount]
          unfold presenceAbsence
          rw [if_neg (by exact_mod_cast Nat.pos_iff_ne_zero.1 hpos)]
        rw [hone, hrest, if_pos (by simpa using hmem)]
        push_cast [List.length_cons]
        ring
      · have hzero : ((us.drop i).take W).count u = 0 := List.count_eq_zero.2 hmem
        have hz : presenceAbsence (windowFreqAt us W i u) = 0 := by
          rw [hcount, hzero]
          rfl
        rw [hz, hrest, if_neg (by simpa using hmem)]
        ring
  exact hmain (List.range (us.length - W + 1))
    (fun i hi => by have := List.mem_range.1 hi; omega)

/-- **C8 witness**: the letters of "un texte" (spec scenario S3) with
window size 3: the unit `"t"` occurs in all 5 of the 5 sliding windows, so
the diagonal cell `("t", "t")` is 5. -/
theorem c8_cooc_in_window_diagonal_witness :
    1 ≤ 3 ∧ 3 ≤ (["u", "n", "t", "e", "x", "t", "e"] : List String).length ∧
    coocInWindowCell ["u", "n", "t", "e", "x", "t", "e"] 3 "t" "t" =
      ((List.length ((List.range
          ((["u", "n", "t", "e", "x", "t", "e"] : List String).length - 3 + 1)).filter
        (fun i => decide ("t" ∈
          ((["u", "n", "t", "e", "x", "t", "e"] : List String).drop i).take 3)))) : ℤ) ∧
    coocInWindowCell ["u", "n", "t", "e", "x", "t", "e"] 3 "t" "t" = 5 :=
  ⟨by decide, by decide,
   c8_cooc_in_window_diagonal ["u", "n", "t", "e", "x", "t", "e"] 3 "t"
     (by decide) (by decide),
   by decide⟩

theorem list_sum_div (l : List ℝ) (d : ℝ) :
    (l.map (fun x => x / d)).sum = l.sum / d := by
  induction l with
  | nil => simp
  | cons x t ih =>
    rw [List.map_cons, List.sum_cons, List.sum_cons, ih, add_div]

/-- **C6**.  `IntPivotCrosstab.to_normalized('columns', 'l2')` divides each
column by its l2 norm and maps `nan` to `0`: in the resulting table the
squared cells of every column with a nonzero entry sum to 1, and the cells
of an all-zero column (and every cell that was zero) stay zero.  The
result keeps the input's row ids and column ids, hence its shape. -/
theorem c6_to_normalized_columns_l2 (T : IntPivot) (_hnd : T.rowIds.Nodup) :
    (∀ c, (∃ r ∈ T.rowIds, T.val r c ≠ 0) →
      (T.rowIds.map (fun r => (toNormalizedColumnsL2 T r c) ^ 2)).sum = 1) ∧
    (∀ r c, T.val r c = 0 → toNormalizedColumnsL2 T r c = 0) := by
  constructor
  · intro c hex
    obtain ⟨r0, hr0, hv0⟩ := hex
    have hterms : ∀ x ∈ T.rowIds.map (fun r => ((T.val r c : ℝ)) ^ 2), 0 ≤ x := by
      intro x hx
      obtain ⟨r, -, rfl⟩ := List.mem_map.1 hx
      positivity
    have hpos : 0 < colSumSq T c := by
      have hmem : ((T.val r0 c : ℝ)) ^ 2 ∈
          T.rowIds.map (fun r => ((T.val r c : ℝ)) ^ 2) :=
        List.mem_map.2 ⟨r0, hr0, rfl⟩
      have hcast : (T.val r0 c : ℝ) ≠ 0 := Nat.cast_ne_zero.2 hv0
      have hsq : (0 : ℝ) < ((T.val r0 c : ℝ)) ^ 2 := by positivity
      exact lt_of_lt_of_le hsq (List.single_le_sum hterms _ hmem)
    have hS : Real.sqrt (colSumSq T c) ^ 2 = colSumSq T c := Real.sq_sqrt hpos.le
    have hmap : T.rowIds.map (fun r => (toNormalizedColumnsL2 T r c) ^ 2)
        = (T.rowIds.map (fun r => ((T.val r c : ℝ)) ^ 2)).map
            (fun x => x / colSumSq T c) := by
      rw [List.map_map]
      apply List.map_congr_left
      intro r _
      show (toNormalizedColumnsL2 T r c) ^ 2 = ((T.val r c : ℝ)) ^ 2 / colSumSq T c
      unfold toNormalizedColumnsL2
      rw [div_pow, hS]
    rw [hmap, list_sum_div]
    show colSumSq T c / colSumSq T c = 1
    exact div_self (ne_of_gt hpos)
  · intro r c h
    unfold toNormalizedColumnsL2
    rw [h]
    simp

/-- **C6 witness**: the crosstab with column `"a" = (3, 4)` and column
`"b" = (0, 0)`: the normalized column `"a"` has unit squared sum
(its cells are 3/5 and 4/5) and column `"b"` stays zero. -/
theorem c6_to_normalized_columns_l2_witness :
    exampleCrosstab.rowIds.Nodup ∧
    (exampleCrosstab.rowIds.map
      (fun r => (toNormalizedColumnsL2 exampleCrosstab r "a") ^ 2)).sum = 1 ∧
    toNormalizedColumnsL2 exampleCrosstab "r1" "b" = 0 :=
  ⟨by decide,
   (c6_to_normalized_columns_l2 exampleCrosstab (by decide)).1 "a"
     ⟨"r1", by decide, by decide⟩,
   (c6_to_normalized_columns_l2 exampleCrosstab (by decide)).2 "r1" "b" (by decide)⟩

/-- **C10**.  For an `IntPivotCrosstab` as produced by `count_in_context`
(string contexts, every row and column sum positive, missing value 0),
`to_association_matrix()` returns a table whose missing value is `None`,
whose sparse store holds exactly the nonzero association values of in-shape
id pairs, and on which `get(c1, c2)` returns `None` — not `0` — whenever
the association value of the pair `(c1, c2)` is exactly `0`. -/
theorem c10_association_matrix_zero_cells (T : IntPivot) (c1 c2 : String)
    (_hrow : ∀ r ∈ T.rowIds, 0 < rowSum T r)
    (_hcol : ∀ c ∈ T.colIds, 0 < colSum T c)
    (h0 : assocNone T c1 c2 = 0) :
    (toAssociationMatrix T).missing = none ∧
    (∀ d1 d2 v, (toAssociationMatrix T).store d1 d2 = some v →
      v = assocNone T d1 d2 ∧ v ≠ 0 ∧ d1 ∈ T.colIds ∧ d2 ∈ T.colIds) ∧
    (∀ d1 d2, d1 ∈ T.colIds → d2 ∈ T.colIds → assocNone T d1 d2 ≠ 0 →
      (toAssociationMatrix T).store d1 d2 = some (assocNone T d1 d2)) ∧
    tableGet (toAssociationMatrix T) c1 c2 = none := by
  refine ⟨rfl, ?_, ?_, ?_⟩
  · intro d1 d2 v hv
    unfold toAssociationMatrix at hv
    dsimp only at hv
    split at hv
    · rename_i hcond
      obtain rfl : assocNone T d1 d2 = v := Option.some.inj hv
      exact ⟨rfl, hcond.2.2, hcond.1, hcond.2.1⟩
    · exact absurd hv (by simp)
  · intro d1 d2 h1 h2 h3
    unfold toAssociationMatrix
    dsimp only
    rw [if_pos ⟨h1, h2, h3⟩]
  · unfold tableGet toAssociationMatrix
    dsimp only
    rw [if_neg (fun hcond => hcond.2.2 h0)]

/-- **C10 witness**: the diagonal 2×2 count table (row `"r1"` counts only
column `"a"`, row `"r2"` only column `"b"`): the association value of
`("a", "b")` is exactly 0, and querying the association matrix at
`("a", "b")` returns `None`. -/
theorem c10_association_matrix_zero_cells_witness :
    (∀ r ∈ diagCrosstab.rowIds, 0 < rowSum diagCrosstab r) ∧
    (∀ c ∈ diagCrosstab.colIds, 0 < colSum diagCrosstab c) ∧
    assocNone diagCrosstab "a" "b" = 0 ∧
    (toAssociationMatrix diagCrosstab).missing = none ∧
    tableGet (toAssociationMatrix diagCrosstab) "a" "b" = none := by
  have hv1 : diagCrosstab.val "r1" "a" = 1 := by decide
  have hv2 : diagCrosstab.val "r1" "b" = 0 := by decide
  have hv3 : diagCrosstab.val "r2" "a" = 0 := by decide
  have hv4 : diagCrosstab.val "r2" "b" = 1 := by decide
  have hrs1 : rowSum diagCrosstab "r1" = 1 := by
    unfold rowSum
    rw [show diagCrosstab.colIds = ["a", "b"] from rfl]
    rw [List.map_cons, List.map_cons, List.map_nil, List.sum_cons,
      List.sum_cons, List.sum_nil, hv1, hv2]
    norm_num
  have hrs2 : rowSum diagCrosstab "r2" = 1 := by
    unfold rowSum
    rw [show diagCrosstab.colIds = ["a", "b"] from rfl]
    rw [List.map_cons, List.map_cons, List.map_nil, List.sum_cons,
      List.sum_cons, List.sum_nil, hv3, hv4]
    norm_num
  have hcs1 : colSum diagCrosstab "a" = 1 := by
    unfold colSum
    rw [show diagCrosstab.rowIds = ["r1", "r2"] from rfl]
    rw [List.map_cons, List.map_cons, List.map_nil, List.sum_cons,
      List.sum_cons, List.sum_nil, hv1, hv3]
    norm_num
  have hcs2 : colSum diagCrosstab "b" = 1 := by
    unfold colSum
    rw [show diagCrosstab.rowIds = ["r1", "r2"] from rfl]
    rw [List.map_cons, List.map_cons, List.map_nil, List.sum_cons,
      List.sum_cons, List.sum_nil, hv2, hv4]
    norm_num
  have h0 : assocNone diagCrosstab "a" "b" = 0 := by
    unfold assocNone exchange
    rw [show diagCrosstab.rowIds = ["r1", "r2"] from rfl]
    rw [List.map_cons, List.map_cons, List.map_nil, List.sum_cons,
      List.sum_cons, List.sum_nil, hv2, hv3]
    norm_num
  have hrow : ∀ r ∈ diagCrosstab.rowIds, 0 < rowSum diagCrosstab r := by
    intro r hr
    have hr' : r = "r1" ∨ r = "r2" := by
      rw [show diagCrosstab.rowIds = ["r1", "r2"] from rfl] at hr
      simpa using hr
    rcases hr' with rfl | rfl
    · rw [hrs1]
      norm_num
    · rw [hrs2]
      norm_num
  have hcol : ∀ c ∈ diagCrosstab.colIds, 0 < colSum diagCrosstab c := by
    intro c hc
    have hc' : c = "a" ∨ c = "b" := by
      rw [show diagCrosstab.colIds = ["a", "b"] from rfl] at hc
      simpa using hc
    rcases hc' with rfl | rfl
    · rw [hcs1]
      norm_num
    · rw [hcs2]
      norm_num
  exact ⟨hrow, hcol, h0,
    (c10_association_matrix_zero_cells diagCrosstab "a" "b" hrow hcol h0).1,
    (c10_association_matrix_zero_cells diagCrosstab "a" "b" hrow hcol h0).2.2.2⟩

/-- **C1** (refuting evidence).  The claim quantifies over arbitrary
segmentations `B` (only `A` is required to be sorted), but
`get_contained_segments` relies on a binary search over `B`'s segments,
which is only correct when each `str_index` run of `B` is sorted by
`start`.  Here `B` is built by three legitimate `append` calls (so its
`str_index_ptr` is exactly the one the class maintains) with starts
`5, 0, 7` on the string `"abcdefghij"`, and `A = (0, 4, 10)`: the code
returns only the segment `(0, 7, 8)`, while the sub-sequence of `B` with
materialized range inside `[4, 10)` is `[(0, 5, 6), (0, 7, 8)]`. -/
theorem c1_counterexample :
    getContainedSegments [StoreEntry.str "abcdefghij"] ⟨0, some 4, some 10⟩
      (buildSgmt [SegOp.app ⟨0, some 5, some 6⟩, SegOp.app ⟨0, some 0, some 1⟩,
        SegOp.app ⟨0, some 7, some 8⟩]) = some [⟨0, some 7, some 8⟩] ∧
    (buildSgmt [SegOp.app ⟨0, some 5, some 6⟩, SegOp.app ⟨0, some 0, some 1⟩,
      SegOp.app ⟨0, some 7, some 8⟩]).segs.filter
      (fun s => s.strIdx == 0 && decide (orZero (some 4) ≤ orZero s.start) &&
        decide (orLen s.stop 10 ≤ orLen (some 10) 10)) =
      [⟨0, some 5, some 6⟩, ⟨0, some 7, some 8⟩] ∧
    ([⟨0, some 7, some 8⟩] : List Seg) ≠
      [⟨0, some 5, some 6⟩, ⟨0, some 7, some 8⟩] := by
  refine ⟨?_, by decide, by decide⟩
  decide

theorem minimumD_le_of_mem (l : List Nat) (d x : Nat) (h : x ∈ l) :
    minimumD l d ≤ x := by
  induction l with
  | nil => exact absurd h (List.not_mem_nil x)
  | cons y t ih =>
    show min y (minimumD t d) ≤ x
    rcases List.mem_cons.1 h with rfl | hm
    · exact min_le_left _ _
    · exact le_trans (min_le_right _ _) (ih hm)

theorem minimumD_le_d (l : List Nat) (d : Nat) : minimumD l d ≤ d := by
  induction l with
  | nil => exact le_refl d
  | cons y t ih => exact le_trans (min_le_right y (minimumD t d)) ih

theorem le_minimumD (l : List Nat) (d c : Nat) (hl : ∀ x ∈ l, c ≤ x)
    (hd : c ≤ d) : c ≤ minimumD l d := by
  induction l with
  | nil => exact hd
  | cons y t ih =>
    show c ≤ min y (minimumD t d)
    exact le_min (hl y (List.mem_cons_self y t))
      (ih (fun x hx => hl x (List.mem_cons_of_mem y hx)))

theorem dlookup_some_mem_values (d : List (Nat × Nat)) (k v : Nat)
    (h : dlookup k d = some v) : v ∈ d.map Prod.snd := by
  induction d with
  | nil => exact absurd h (by rw [dlookup]; exact Option.noConfusion)
  | cons p t ih =>
    rw [dlookup] at h
    by_cases hp : p.1 = k
    · rw [if_pos hp] at h
      rw [List.map_cons]
      exact (Option.some.inj h) ▸ List.mem_cons_self p.2 _
    · rw [if_neg hp] at h
      exact List.mem_cons_of_mem p.2 (ih h)

theorem dlookup_some_mem_keys (d : List (Nat × Nat)) (k v : Nat)
    (h : dlookup k d = some v) : k ∈ d.map Prod.fst := by
  induction d with
  | nil => exact absurd h (by rw [dlookup]; exact Option.noConfusion)
  | cons p t ih =>
    rw [dlookup] at h
    by_cases hp : p.1 = k
    · rw [List.map_cons, hp]
      exact List.mem_cons_self k _
    · rw [if_neg hp] at h
      exact List.mem_cons_of_mem p.1 (ih h)

theorem mem_values_exists_lookup (d : List (Nat × Nat))
    (hnd : (d.map Prod.fst).Nodup) (v : Nat) (h : v ∈ d.map Prod.snd) :
    ∃ k, dlookup k d = some v := by
  induction d with
  | nil => exact absurd h (by simp)
  | cons p t ih =>
    rw [List.map_cons] at h hnd
    rcases List.mem_cons.1 h with rfl | hm
    · exact ⟨p.1, by rw [dlookup, if_pos rfl]⟩
    · obtain ⟨k, hk⟩ := ih hnd.of_cons hm
      refine ⟨k, ?_⟩
      rw [dlookup, if_neg ?_]
      · exact hk
      · intro hpk
        exact (List.nodup_cons.1 hnd).1 (hpk ▸ dlookup_some_mem_keys t k v hk)

theorem seg_getD_eq_getElem (l : List Seg) (i : ℕ) (h : i < l.length) :
    l.getD i ⟨0, none, none⟩ = l[i] := by
  rw [List.getD_eq_getElem?_getD, List.getElem?_eq_getElem h]
  rfl

theorem seg_get?_eq (l : List Seg) (i : ℕ) (h : i < l.length) :
    l.get? i = some (l.getD i ⟨0, none, none⟩) := by
  rw [List.get?_eq_getElem?, List.getElem?_eq_getElem h,
    seg_getD_eq_getElem l i h]

theorem seg_drop_getD (l : List Seg) (m j : ℕ) :
    (l.drop m).getD j ⟨0, none, none⟩ = l.getD (m + j) ⟨0, none, none⟩ := by
  rw [List.getD_eq_getElem?_getD, List.getElem?_drop,
    ← List.getD_eq_getElem?_getD]

theorem takeWhile_getD_true (p : Seg → Bool) :
    ∀ (l : List Seg) (k : ℕ), k < (l.takeWhile p).length →
      p (l.getD k ⟨0, none, none⟩) = true := by
  intro l
  induction l with
  | nil =>
    intro k hk
    simp at hk
  | cons s t ih =>
    intro k hk
    cases hp : p s with
    | false =>
      rw [List.takeWhile_cons, hp] at hk
      simp at hk
    | true =>
      rw [List.takeWhile_cons, hp] at hk
      cases k with
      | zero => exact hp
      | succ k' =>
        rw [List.getD_cons_succ]
        exact ih k' (by simpa using hk)

theorem takeWhile_boundary (p : Seg → Bool) :
    ∀ (l : List Seg), (l.takeWhile p).length < l.length →
      p (l.getD (l.takeWhile p).length ⟨0, none, none⟩) = false := by
  intro l
  induction l with
  | nil =>
    intro h
    simp at h
  | cons s t ih =>
    intro h
    cases hp : p s with
    | false =>
      rw [List.takeWhile_cons_of_neg (by simp [hp])]
      simpa using hp
    | true =>
      rw [List.takeWhile_cons_of_pos hp] at h ⊢
      simp only [List.length_cons] at h ⊢
      rw [List.getD_cons_succ]
      exact ih (by omega)

theorem mem_drop_idx (l : List Seg) (m : ℕ) (x : Seg) (h : x ∈ l.drop m) :
    ∃ k, m ≤ k ∧ k < l.length ∧ l.getD k ⟨0, none, none⟩ = x := by
  obtain ⟨j, hj, hx⟩ := List.getElem_of_mem h
  refine ⟨m + j, Nat.le_add_right m j, ?_, ?_⟩
  · have := List.length_drop m l ▸ hj
    omega
  · rw [← seg_drop_getD, seg_getD_eq_getElem _ _ hj]
    exact hx

theorem mem_take_idx (l : List Seg) (m : ℕ) (x : Seg) (h : x ∈ l.take m) :
    ∃ k, k < m ∧ k < l.length ∧ l.getD k ⟨0, none, none⟩ = x := by
  obtain ⟨j, hj, hx⟩ := List.getElem_of_mem h
  have hjlen : j < l.length := lt_of_lt_of_le hj (by
    rw [List.length_take]
    exact min_le_right _ _)
  have hjm : j < m := lt_of_lt_of_le hj (by
    rw [List.length_take]
    exact min_le_left _ _)
  refine ⟨j, hjm, hjlen, ?_⟩
  rw [seg_getD_eq_getElem _ _ hjlen, ← hx]
  exact (List.getElem_take l).symm

theorem takeWhile_len_le (p : Seg → Bool) :
    ∀ l : List Seg, (l.takeWhile p).length ≤ l.length := by
  intro l
  induction l with
  | nil => simp
  | cons s t ih =>
    cases hp : p s with
    | false =>
      rw [List.takeWhile_cons_of_neg (by simp [hp])]
      simp
    | true =>
      rw [List.takeWhile_cons_of_pos hp]
      simp only [List.length_cons]
      omega

theorem run_facts (segs : List Seg) (idx s0 : ℕ)
    (hcontig : ContigRuns segs) (hfp : firstPos segs idx = some s0) :
    s0 < runEnd segs idx s0 ∧ runEnd segs idx s0 ≤ segs.length ∧
    (∀ k, s0 ≤ k → k < runEnd segs idx s0 →
      (segs.getD k ⟨0, none, none⟩).strIdx = idx) ∧
    (∀ k, k < s0 → (segs.getD k ⟨0, none, none⟩).strIdx ≠ idx) ∧
    (∀ k, runEnd segs idx s0 ≤ k → k < segs.length →
      (segs.getD k ⟨0, none, none⟩).strIdx ≠ idx) := by
  obtain ⟨hs0len, hs0idx, hmin⟩ := firstPos_some_spec segs idx s0 hfp
  set tw := ((segs.drop s0).takeWhile (fun s => s.strIdx == idx)).length with htw
  have hrE : runEnd segs idx s0 = s0 + tw := by
    unfold runEnd
    rw [htw]
  have htwle : tw ≤ segs.length - s0 := by
    have h1 : tw ≤ (segs.drop s0).length := by
      rw [htw]
      exact takeWhile_len_le _ _
    rw [List.length_drop] at h1
    exact h1
  have hR1 : ∀ k, s0 ≤ k → k < s0 + tw →
      (segs.getD k ⟨0, none, none⟩).strIdx = idx := by
    intro k hk1 hk2
    have hval := takeWhile_getD_true (fun s => s.strIdx == idx) (segs.drop s0)
      (k - s0) (by rw [← htw]; omega)
    rw [seg_drop_getD, show s0 + (k - s0) = k from by omega] at hval
    simpa using hval
  have htw1 : 1 ≤ tw := by
    by_contra hcon
    have htw0 : tw = 0 := by omega
    have hlt : ((segs.drop s0).takeWhile (fun s => s.strIdx == idx)).length <
        (segs.drop s0).length := by
      rw [← htw, htw0, List.length_drop]
      omega
    have hb := takeWhile_boundary (fun s => s.strIdx == idx) (segs.drop s0) hlt
    rw [← htw, htw0, seg_drop_getD, Nat.add_zero] at hb
    simp only [beq_eq_false_iff_ne, ne_eq] at hb
    exact hb hs0idx
  have hbound : s0 + tw < segs.length →
      (segs.getD (s0 + tw) ⟨0, none, none⟩).strIdx ≠ idx := by
    intro hlt
    have hlt' : ((segs.drop s0).takeWhile (fun s => s.strIdx == idx)).length <
        (segs.drop s0).length := by
      rw [← htw, List.length_drop]
      omega
    have hb := takeWhile_boundary (fun s => s.strIdx == idx) (segs.drop s0) hlt'
    rw [← htw, seg_drop_getD] at hb
    intro habs
    simp only [beq_eq_false_iff_ne, ne_eq] at hb
    exact hb habs
  have hR3 : ∀ k, s0 + tw ≤ k → k < segs.length →
      (segs.getD k ⟨0, none, none⟩).strIdx ≠ idx := by
    intro k hk1 hk2 habs
    have hltlen : s0 + tw < segs.length := by omega
    have hb := hbound hltlen
    by_cases hke : k = s0 + tw
    · exact hb (hke ▸ habs)
    · have hmid := hcontig k hk2 (s0 + tw) (by omega) s0 (by omega)
        (by rw [hs0idx, habs])
      rw [hs0idx] at hmid
      exact hb hmid
  rw [hrE]
  exact ⟨by omega, by omega, hR1, hmin, hR3⟩

theorem firstPos_eq_some_of (l : List Seg) (idx p : ℕ) (hp : p < l.length)
    (hidx : (l.getD p ⟨0, none, none⟩).strIdx = idx)
    (hmin : ∀ q, q < p → (l.getD q ⟨0, none, none⟩).strIdx ≠ idx) :
    firstPos l idx = some p := by
  cases hfp : firstPos l idx with
  | none =>
    exfalso
    have hall := (firstPos_none_iff l idx).1 hfp
    apply hall (l.getD p ⟨0, none, none⟩) ?_ hidx
    rw [seg_getD_eq_getElem l p hp]
    exact List.getElem_mem hp
  | some p' =>
    obtain ⟨hp'len, hp'idx, hp'min⟩ := firstPos_some_spec l idx p' hfp
    rcases lt_trichotomy p' p with h | h | h
    · exact absurd hp'idx (hmin p' h)
    · rw [h]
    · exact absurd hidx (hp'min p h)

theorem end_search_eq (B : Sgmt) (idx s0 : ℕ)
    (hnd : (B.ptr.map Prod.fst).Nodup)
    (hptr : ∀ i, dlookup i B.ptr = firstPos B.segs i)
    (hcontig : ContigRuns B.segs)
    (hfp : firstPos B.segs idx = some s0) :
    minimumD ((B.ptr.map Prod.snd).filter (fun x => decide (s0 < x)))
      B.segs.length = runEnd B.segs idx s0 := by
  obtain ⟨hlt, hle, hR1, hR2, hR3⟩ := run_facts B.segs idx s0 hcontig hfp
  have hall : ∀ x ∈ (B.ptr.map Prod.snd).filter (fun x => decide (s0 < x)),
      runEnd B.segs idx s0 ≤ x := by
    intro x hx
    obtain ⟨hxmem, hxgt⟩ := List.mem_filter.1 hx
    have hxgt' : s0 < x := of_decide_eq_true hxgt
    obtain ⟨k, hk⟩ := mem_values_exists_lookup B.ptr hnd x hxmem
    rw [hptr k] at hk
    obtain ⟨hxlen, hxidx, -⟩ := firstPos_some_spec B.segs k x hk
    by_contra hcon
    have hxrun : (B.segs.getD x ⟨0, none, none⟩).strIdx = idx :=
      hR1 x (by omega) (by omega)
    rw [hxrun] at hxidx
    rw [← hxidx] at hk
    rw [hfp] at hk
    exact absurd (Option.some.inj hk) (by omega)
  by_cases hre : runEnd B.segs idx s0 < B.segs.length
  · have hidx' : firstPos B.segs
        ((B.segs.getD (runEnd B.segs idx s0) ⟨0, none, none⟩).strIdx) =
        some (runEnd B.segs idx s0) := by
      apply firstPos_eq_some_of B.segs _ _ hre rfl
      intro q hq habs
      by_cases hqs : q < s0
      · have hmid := hcontig (runEnd B.segs idx s0) hre s0 hlt q hqs habs
        exact hR2 q hqs (by rw [← hmid]; exact hR1 s0 (le_refl s0) hlt)
      · have hq1 : (B.segs.getD q ⟨0, none, none⟩).strIdx = idx :=
          hR1 q (by omega) hq
        exact hR3 (runEnd B.segs idx s0) (le_refl _) hre
          (by rw [← habs]; exact hq1)
    have hmem : runEnd B.segs idx s0 ∈
        (B.ptr.map Prod.snd).filter (fun x => decide (s0 < x)) := by
      rw [List.mem_filter]
      constructor
      · apply dlookup_some_mem_values B.ptr _ _
        rw [hptr]
        exact hidx'
      · exact decide_eq_true hlt
    exact le_antisymm (minimumD_le_of_mem _ _ _ hmem) (le_minimumD _ _ _ hall hle)
  · have hre' : runEnd B.segs idx s0 = B.segs.length := by omega
    rw [hre']
    exact le_antisymm (minimumD_le_d _ _) (le_minimumD _ _ _ (hre' ▸ hall) (le_refl _))

theorem bsearchGo_spec (segs : List Seg) (startA s0 e0 : ℕ)
    (hlen : e0 ≤ segs.length)
    (hmono : ∀ k l, s0 ≤ k → k ≤ l → l < e0 →
      startA ≤ orZero ((segs.getD k ⟨0, none, none⟩).start) →
      startA ≤ orZero ((segs.getD l ⟨0, none, none⟩).start)) :
    ∀ fuel s e, s0 ≤ s → s < e → e ≤ e0 → e - s ≤ fuel →
    (¬ startA ≤ orZero ((segs.getD s ⟨0, none, none⟩).start) ∨ s = s0) →
    (∀ k, e ≤ k → k < e0 → startA ≤ orZero ((segs.getD k ⟨0, none, none⟩).start)) →
    ∃ s1, bsearchGo segs startA fuel s e = some (s1, s1 + 1) ∧
      s0 ≤ s1 ∧ s1 + 1 ≤ e0 ∧
      (¬ startA ≤ orZero ((segs.getD s1 ⟨0, none, none⟩).start) ∨ s1 = s0) ∧
      (∀ k, s1 + 1 ≤ k → k < e0 →
        startA ≤ orZero ((segs.getD k ⟨0, none, none⟩).start)) := by
  intro fuel
  induction fuel with
  | zero =>
    intro s e hs hse he hfuel _ _
    omega
  | succ fuel ih =>
    intro s e hs hse he hfuel hinv1 hinv2
    by_cases hgt : e - s > 1
    · have hmid1 : s < (e + s) / 2 := by omega
      have hmid2 : (e + s) / 2 < e := by omega
      have hm : segs.get? ((e + s) / 2) =
          some (segs.getD ((e + s) / 2) ⟨0, none, none⟩) :=
        seg_get?_eq segs _ (by omega)
      have hred : bsearchGo segs startA (fuel + 1) s e =
          (if startA ≤ orZero ((segs.getD ((e + s) / 2) ⟨0, none, none⟩).start)
           then bsearchGo segs startA fuel s ((e + s) / 2)
           else bsearchGo segs startA fuel ((e + s) / 2) e) := by
        rw [show bsearchGo segs startA (fuel + 1) s e =
          (if e - s > 1 then
            match segs.get? ((e + s) / 2) with
            | none => none
            | some mid =>
                if startA ≤ orZero mid.start then
                  bsearchGo segs startA fuel s ((e + s) / 2)
                else
                  bsearchGo segs startA fuel ((e + s) / 2) e
          else some (s, e)) from rfl]
        rw [if_pos hgt, hm]
      rw [hred]
      by_cases hP : startA ≤ orZero ((segs.getD ((e + s) / 2) ⟨0, none, none⟩).start)
      · rw [if_pos hP]
        exact ih s ((e + s) / 2) hs hmid1 (by omega) (by omega) hinv1
          (fun k hk1 hk2 => hmono ((e + s) / 2) k (by omega) hk1 hk2 hP)
      · rw [if_neg hP]
        exact ih ((e + s) / 2) e (by omega) hmid2 he (by omega) (Or.inl hP) hinv2
    · have he1 : e = s + 1 := by omega
      refine ⟨s, ?_, hs, by omega, hinv1, by rw [← he1]; exact hinv2⟩
      rw [show bsearchGo segs startA (fuel + 1) s e =
        (if e - s > 1 then
          match segs.get? ((e + s) / 2) with
          | none => none
          | some mid =>
              if startA ≤ orZero mid.start then
                bsearchGo segs startA fuel s ((e + s) / 2)
              else
                bsearchGo segs startA fuel ((e + s) / 2) e
        else some (s, e)) from rfl]
      rw [if_neg hgt, he1]

theorem collectContained_cons (idx endA strLen : ℕ) (s : Seg) (rest : List Seg) :
    collectContained idx endA strLen (s :: rest) =
      if idx ≠ s.strIdx ∨ orZero s.start > endA then []
      else (if endA ≥ orLen s.stop strLen then [s] else []) ++
        collectContained idx endA strLen rest := rfl

theorem collect_eq_filter (segs : List Seg) (idx startA endA strLen s0 e0 : ℕ)
    (hrun : ∀ k, s0 ≤ k → k < e0 → (segs.getD k ⟨0, none, none⟩).strIdx = idx)
    (hafter : ∀ k, e0 ≤ k → k < segs.length →
      (segs.getD k ⟨0, none, none⟩).strIdx ≠ idx)
    (hmono : ∀ k l, s0 ≤ k → k ≤ l → l < e0 →
      orZero ((segs.getD k ⟨0, none, none⟩).start) ≤
        orZero ((segs.getD l ⟨0, none, none⟩).start))
    (hwf : ∀ s ∈ segs, orZero s.start ≤ orLen s.stop strLen) :
    ∀ n m, segs.length - m ≤ n → s0 ≤ m →
    (∀ k, m ≤ k → k < e0 →
      startA ≤ orZero ((segs.getD k ⟨0, none, none⟩).start)) →
    collectContained idx endA strLen (segs.drop m) =
      (segs.drop m).filter (fun s => s.strIdx == idx &&
        decide (startA ≤ orZero s.start) &&
        decide (orLen s.stop strLen ≤ endA)) := by
  intro n
  induction n with
  | zero =>
    intro m hn hs0 hP
    rw [List.drop_eq_nil_of_le (by omega)]
    rfl
  | succ n ih =>
    intro m hn hs0 hP
    by_cases hmlen : m < segs.length
    case neg =>
      rw [List.drop_eq_nil_of_le (by omega)]
      rfl
    case pos =>
    have hdrop : segs.drop m = segs.getD m ⟨0, none, none⟩ :: segs.drop (m + 1) := by
      rw [seg_getD_eq_getElem segs m hmlen]
      exact List.drop_eq_getElem_cons hmlen
    by_cases hme : m < e0
    · have hidx : (segs.getD m ⟨0, none, none⟩).strIdx = idx := hrun m hs0 hme
      by_cases hstart : orZero ((segs.getD m ⟨0, none, none⟩).start) > endA
      · rw [hdrop, collectContained_cons, if_pos (Or.inr hstart), ← hdrop]
        symm
        rw [List.filter_eq_nil_iff]
        intro a ha hpa
        simp only [Bool.and_eq_true, beq_iff_eq, decide_eq_true_eq] at hpa
        obtain ⟨⟨ha1, -⟩, ha3⟩ := hpa
        obtain ⟨k, hk1, hk2, hkeq⟩ := mem_drop_idx segs m a ha
        by_cases hke : k < e0
        · have hst : orZero ((segs.getD m ⟨0, none, none⟩).start) ≤
              orZero ((segs.getD k ⟨0, none, none⟩).start) :=
            hmono m k hs0 hk1 hke
          have hwfa : orZero a.start ≤ orLen a.stop strLen :=
            hwf a (List.mem_of_mem_drop ha)
          rw [hkeq] at hst
          omega
        · exact hafter k (by omega) hk2 (hkeq ▸ ha1)
      · rw [hdrop, collectContained_cons,
          if_neg (by
            push_neg
            exact ⟨hidx.symm, by omega⟩)]
        rw [List.filter_cons]
        have hpm : ((segs.getD m ⟨0, none, none⟩).strIdx == idx &&
            decide (startA ≤ orZero ((segs.getD m ⟨0, none, none⟩).start)) &&
            decide (orLen (segs.getD m ⟨0, none, none⟩).stop strLen ≤ endA)) =
            decide (orLen (segs.getD m ⟨0, none, none⟩).stop strLen ≤ endA) := by
          rw [show ((segs.getD m ⟨0, none, none⟩).strIdx == idx) = true from
            by rw [hidx]; exact beq_self_eq_true idx]
          rw [show decide (startA ≤
              orZero ((segs.getD m ⟨0, none, none⟩).start)) = true from
            decide_eq_true (hP m (le_refl m) hme)]
          rw [Bool.true_and, Bool.true_and]
        have hrec := ih (m + 1) (by omega) (by omega)
          (fun k hk1 hk2 => hP k (by omega) hk2)
        by_cases hstop : orLen (segs.getD m ⟨0, none, none⟩).stop strLen ≤ endA
        · rw [if_pos (by omega : endA ≥ orLen (segs.getD m ⟨0, none, none⟩).stop
            strLen)]
          rw [if_pos (by rw [hpm]; exact decide_eq_true hstop)]
          rw [hrec]
          rfl
        · rw [if_neg (by omega : ¬ endA ≥ orLen (segs.getD m ⟨0, none, none⟩).stop
            strLen)]
          rw [if_neg (by rw [hpm]; simpa using hstop)]
          rw [hrec]
          rfl
    · rw [hdrop, collectContained_cons,
        if_pos (Or.inl (fun h => hafter m (by omega) hmlen h.symm)), ← hdrop]
      symm
      rw [List.filter_eq_nil_iff]
      intro a ha hpa
      simp only [Bool.and_eq_true, beq_iff_eq, decide_eq_true_eq] at hpa
      obtain ⟨⟨ha1, -⟩, -⟩ := hpa
      obtain ⟨k, hk1, hk2, hkeq⟩ := mem_drop_idx segs m a ha
      exact hafter k (by omega) hk2 (hkeq ▸ ha1)

/-- **C1 amended**.  `A.get_contained_segments(B)` returns exactly the
sub-sequence of `B`'s segments (in `B`'s order) bearing `A`'s `str_index`
whose materialized range lies within `A`'s materialized range — and in
particular the empty list when `B.str_index_ptr` has no entry for it —
provided `B` is well formed: its `str_index_ptr` maps every `str_index` to
its first position, each `str_index` occupies one contiguous run, each run
is nondecreasing in materialized `start` (the sortedness the binary search
needs, which the original claim omits), and every segment's materialized
range is nonempty-ordered (`start ≤ end`).  Segments of `B` on a different
`str_index` are never returned, even if it resolves to the same backing
string through a redirect. -/
theorem c1_get_contained_segments (data : List StoreEntry) (A : Seg) (B : Sgmt)
    (astr : String) (hdata : getData data A.strIdx = some astr)
    (hnd : (B.ptr.map Prod.fst).Nodup)
    (hptr : ∀ i, dlookup i B.ptr = firstPos B.segs i)
    (hcontig : ContigRuns B.segs)
    (hsorted : ∀ k, k < B.segs.length → ∀ j, j < k →
      (B.segs.getD j ⟨0, none, none⟩).strIdx =
        (B.segs.getD k ⟨0, none, none⟩).strIdx →
      orZero ((B.segs.getD j ⟨0, none, none⟩).start) ≤
        orZero ((B.segs.getD k ⟨0, none, none⟩).start))
    (hwf : ∀ s ∈ B.segs, orZero s.start ≤ orLen s.stop astr.length) :
    getContainedSegments data A B =
      some (B.segs.filter (fun s => s.strIdx == A.strIdx &&
        decide (orZero A.start ≤ orZero s.start) &&
        decide (orLen s.stop astr.length ≤ orLen A.stop astr.length))) := by
  have hstep : getContainedSegments data A B =
      some ((gcsCore B.segs B.ptr A.strIdx (orZero A.start)
        (orLen A.stop astr.length) astr.length).getD []) := by
    unfold getContainedSegments
    rw [hdata]
  rw [hstep]
  cases hfp : firstPos B.segs A.strIdx with
  | none =>
    have hcore : gcsCore B.segs B.ptr A.strIdx (orZero A.start)
        (orLen A.stop astr.length) astr.length = none := by
      unfold gcsCore
      rw [(hptr A.strIdx).trans hfp]
    rw [hcore]
    refine congrArg some ?_
    rw [show (none : Option (List Seg)).getD [] = [] from rfl]
    symm
    rw [List.filter_eq_nil_iff]
    intro a ha hpa
    simp only [Bool.and_eq_true, beq_iff_eq, decide_eq_true_eq] at hpa
    exact (firstPos_none_iff B.segs A.strIdx).1 hfp a ha hpa.1.1
  | some s0 =>
    have hlk : dlookup A.strIdx B.ptr = some s0 := (hptr A.strIdx).trans hfp
    obtain ⟨hlt, hle, hR1, hR2, hR3⟩ := run_facts B.segs A.strIdx s0 hcontig hfp
    have he0 := end_search_eq B A.strIdx s0 hnd hptr hcontig hfp
    have hmono : ∀ k l, s0 ≤ k → k ≤ l → l < runEnd B.segs A.strIdx s0 →
        orZero ((B.segs.getD k ⟨0, none, none⟩).start) ≤
          orZero ((B.segs.getD l ⟨0, none, none⟩).start) := by
      intro k l hk hkl hl
      by_cases hkeq : k = l
      · rw [hkeq]
      · exact hsorted l (by omega) k (by omega)
          (by rw [hR1 k hk (by omega), hR1 l (by omega) hl])
    have hmonoP : ∀ k l, s0 ≤ k → k ≤ l → l < runEnd B.segs A.strIdx s0 →
        orZero A.start ≤ orZero ((B.segs.getD k ⟨0, none, none⟩).start) →
        orZero A.start ≤ orZero ((B.segs.getD l ⟨0, none, none⟩).start) :=
      fun k l hk hkl hl h => le_trans h (hmono k l hk hkl hl)
    obtain ⟨s1, hbs, hs1ge, hs1lt, hinv1, hinv2⟩ :=
      bsearchGo_spec B.segs (orZero A.start) s0 (runEnd B.segs A.strIdx s0)
        hle hmonoP (runEnd B.segs A.strIdx s0 - s0) s0
        (runEnd B.segs A.strIdx s0) (le_refl s0) hlt (le_refl _) (le_refl _)
        (Or.inr rfl)
        (fun k hk1 hk2 => absurd (Nat.lt_of_le_of_lt hk1 hk2) (lt_irrefl _))
    have hcore : gcsCore B.segs B.ptr A.strIdx (orZero A.start)
        (orLen A.stop astr.length) astr.length =
        gcsAfterPtr B.segs B.ptr A.strIdx (orZero A.start)
          (orLen A.stop astr.length) astr.length s0 := by
      unfold gcsCore
      rw [hlk]
    have hafterPtr : gcsAfterPtr B.segs B.ptr A.strIdx (orZero A.start)
        (orLen A.stop astr.length) astr.length s0 =
        gcsAfterSearch B.segs A.strIdx (orZero A.start)
          (orLen A.stop astr.length) astr.length s1 := by
      unfold gcsAfterPtr
      rw [he0, hbs]
    have hs1len : s1 < B.segs.length := by omega
    have hafterSearch : gcsAfterSearch B.segs A.strIdx (orZero A.start)
        (orLen A.stop astr.length) astr.length s1 =
        some (collectContained A.strIdx (orLen A.stop astr.length) astr.length
          (B.segs.drop (if orZero A.start ≤
              orZero ((B.segs.getD s1 ⟨0, none, none⟩).start)
            then s1 else s1 + 1))) := by
      unfold gcsAfterSearch
      rw [seg_get?_eq B.segs s1 hs1len]
    rw [hcore, hafterPtr, hafterSearch]
    refine congrArg some ?_
    rw [show ∀ o : List Seg, (some o).getD [] = o from fun o => rfl]
    by_cases hPs1 : orZero A.start ≤ orZero ((B.segs.getD s1 ⟨0, none, none⟩).start)
    · have hs1s0 : s1 = s0 := by
        rcases hinv1 with h | h
        · exact absurd hPs1 h
        · exact h
      rw [if_pos hPs1, hs1s0]
      have hcol := collect_eq_filter B.segs A.strIdx (orZero A.start)
        (orLen A.stop astr.length) astr.length s0 (runEnd B.segs A.strIdx s0)
        hR1 hR3 hmono hwf B.segs.length s0 (by omega) (le_refl s0)
        (fun k hk1 hk2 => hmonoP s0 k (hs1s0 ▸ hs1ge) hk1 hk2 (hs1s0 ▸ hPs1))
      rw [hcol]
      have hfil : B.segs.filter (fun s => s.strIdx == A.strIdx &&
          decide (orZero A.start ≤ orZero s.start) &&
          decide (orLen s.stop astr.length ≤ orLen A.stop astr.length)) =
          (B.segs.take s0).filter (fun s => s.strIdx == A.strIdx &&
            decide (orZero A.start ≤ orZero s.start) &&
            decide (orLen s.stop astr.length ≤ orLen A.stop astr.length)) ++
          (B.segs.drop s0).filter (fun s => s.strIdx == A.strIdx &&
            decide (orZero A.start ≤ orZero s.start) &&
            decide (orLen s.stop astr.length ≤ orLen A.stop astr.length)) := by
        rw [← List.filter_append, List.take_append_drop]
      rw [hfil]
      rw [show (B.segs.take s0).filter (fun s => s.strIdx == A.strIdx &&
          decide (orZero A.start ≤ orZero s.start) &&
          decide (orLen s.stop astr.length ≤ orLen A.stop astr.length)) = [] from by
        rw [List.filter_eq_nil_iff]
        intro a ha hpa
        simp only [Bool.and_eq_true, beq_iff_eq, decide_eq_true_eq] at hpa
        obtain ⟨k, hk1, hk2, hkeq⟩ := mem_take_idx B.segs s0 a ha
        exact hR2 k hk1 (hkeq ▸ hpa.1.1)]
      rw [List.nil_append]
    · have hnotP : ∀ k, s0 ≤ k → k ≤ s1 →
          ¬ orZero A.start ≤ orZero ((B.segs.getD k ⟨0, none, none⟩).start) := by
        intro k hk1 hk2 habs
        exact hPs1 (hmonoP k s1 hk1 hk2 (by omega) habs)
      rw [if_neg hPs1]
      have hcol := collect_eq_filter B.segs A.strIdx (orZero A.start)
        (orLen A.stop astr.length) astr.length s0 (runEnd B.segs A.strIdx s0)
        hR1 hR3 hmono hwf B.segs.length (s1 + 1) (by omega) (by omega) hinv2
      rw [hcol]
      have hfil : B.segs.filter (fun s => s.strIdx == A.strIdx &&
          decide (orZero A.start ≤ orZero s.start) &&
          decide (orLen s.stop astr.length ≤ orLen A.stop astr.length)) =
          (B.segs.take (s1 + 1)).filter (fun s => s.strIdx == A.strIdx &&
            decide (orZero A.start ≤ orZero s.start) &&
            decide (orLen s.stop astr.length ≤ orLen A.stop astr.length)) ++
          (B.segs.drop (s1 + 1)).filter (fun s => s.strIdx == A.strIdx &&
            decide (orZero A.start ≤ orZero s.start) &&
            decide (orLen s.stop astr.length ≤ orLen A.stop astr.length)) := by
        rw [← List.filter_append, List.take_append_drop]
      rw [hfil]
      rw [show (B.segs.take (s1 + 1)).filter (fun s => s.strIdx == A.strIdx &&
          decide (orZero A.start ≤ orZero s.start) &&
          decide (orLen s.stop astr.length ≤ orLen A.stop astr.length)) = [] from by
        rw [List.filter_eq_nil_iff]
        intro a ha hpa
        simp only [Bool.and_eq_true, beq_iff_eq, decide_eq_true_eq] at hpa
        obtain ⟨k, hk1, hk2, hkeq⟩ := mem_take_idx B.segs (s1 + 1) a ha
        by_cases hks0 : k < s0
        · exact hR2 k hks0 (hkeq ▸ hpa.1.1)
        · exact hnotP k (by omega) (by omega) (hkeq ▸ hpa.1.2)]
      rw [List.nil_append]

/-- **C1 witness**: spec scenario S1 — on the string `"un texte"`, taking
`A = (0, 3, 8)` (the word `"texte"`) against the sorted one-run
segmentation of the vowel-like positions `(0,1), (4,5), (7,8)` with
`str_index_ptr = {0: 0}`, the code returns exactly the two segments
contained in `[3, 8)`. -/
theorem c1_get_contained_segments_witness :
    (∀ i, dlookup i [(0, 0)] =
      firstPos [(⟨0, some 0, some 1⟩ : Seg), ⟨0, some 4, some 5⟩,
        ⟨0, some 7, some 8⟩] i) ∧
    ContigRuns [(⟨0, some 0, some 1⟩ : Seg), ⟨0, some 4, some 5⟩,
      ⟨0, some 7, some 8⟩] ∧
    getContainedSegments [StoreEntry.str "un texte"] ⟨0, some 3, some 8⟩
      ⟨[⟨0, some 0, some 1⟩, ⟨0, some 4, some 5⟩, ⟨0, some 7, some 8⟩],
        [(0, 0)]⟩ =
      some [⟨0, some 4, some 5⟩, ⟨0, some 7, some 8⟩] := by
  have hptr : ∀ i, dlookup i [(0, 0)] =
      firstPos [(⟨0, some 0, some 1⟩ : Seg), ⟨0, some 4, some 5⟩,
        ⟨0, some 7, some 8⟩] i := by
    intro i
    by_cases hi : i = 0
    · subst hi
      decide
    · have h1 : dlookup i [(0, 0)] = none := by
        rw [dlookup, if_neg (fun h => hi h.symm)]
        rfl
      have h2 : firstPos [(⟨0, some 0, some 1⟩ : Seg), ⟨0, some 4, some 5⟩,
          ⟨0, some 7, some 8⟩] i = none := by
        rw [firstPos_none_iff]
        intro s hs
        fin_cases hs <;> exact fun h => hi h.symm
      rw [h1, h2]
  refine ⟨hptr, by decide, ?_⟩
  rw [c1_get_contained_segments [StoreEntry.str "un texte"] ⟨0, some 3, some 8⟩
    ⟨[⟨0, some 0, some 1⟩, ⟨0, some 4, some 5⟩, ⟨0, some 7, some 8⟩], [(0, 0)]⟩
    "un texte" (by decide) (by decide) hptr (by decide) (by decide) (by decide)]
  decide

end LTTL
